import Mathlib

/-!
Verification of the classical-cipher / attack engine of the `death_ssad`
repository (`backend/utils/ciphers.js` and `backend/utils/attacks.js`).

Texts are modelled as lists of natural numbers: a JavaScript string is a
sequence of UTF-16 code units, and the ciphers act on it exclusively through
`charCodeAt` / `fromCharCode`, so `List ℕ` is the direct image of the data the
code manipulates (97 = 'a', 122 = 'z', 65 = 'A', 90 = 'Z', 74 = 'J',
73 = 'I', 88 = 'X').  The JavaScript `%` operator on integers is truncated
remainder, i.e. `Int.tmod`.  `toUpperCase` / `toLowerCase` are modelled on the
ASCII range, which is the only range the ciphers distinguish.  Functions that
can `throw` return `Except String`; a JavaScript runtime crash (destructuring
`null`) is modelled as `Option.none`.
-/

namespace DeathSsad

/-- JavaScript `%` on integers: truncated remainder (sign of the dividend). -/
def jsrem (a b : ℤ) : ℤ := a.tmod b

/-- Euclid loop of `ciphers.gcd`, with explicit fuel.  The source runs
`while (b !== 0) { [a, b] = [b, a % b]; }`; the fuel only bounds the number of
iterations and `natAbs b + 1` is proven sufficient (`gcd_step`). -/
def gcdAux : ℕ → ℤ → ℤ → ℤ
  | 0, a, _ => a
  | fuel + 1, a, b => if b = 0 then a else gcdAux fuel b (jsrem a b)

/-- Model of `ciphers.gcd(a, b)`: Euclid with JavaScript truncated remainder. -/
def gcd (a b : ℤ) : ℤ := gcdAux (b.natAbs + 1) a b

/-- Model of `ciphers.modInverse(a, m)`: normalises `a` to `((a % m) + m) % m` and then
linearly searches `x = 1 .. m-1` for `(a * x) % m === 1`, returning `null`
(`none`) when the search fails. -/
def modInverse (a m : ℤ) : Option ℤ :=
  let a' := jsrem (jsrem a m + m) m
  ((List.range' 1 (m - 1).toNat).find? fun (x : ℕ) =>
    decide (jsrem (a' * (x : ℤ)) m = 1)).map fun (x : ℕ) => (x : ℤ)

/-- Model of `ciphers.mod(n, m) = ((n % m) + m) % m`, the positive modulo helper. -/
def mod (n m : ℤ) : ℤ := jsrem (jsrem n m + m) m

/-- Texts are sequences of UTF-16 code units. -/
abbrev Text := List ℕ

/-- Code units of a string literal, for concrete test inputs. -/
def str (s : String) : Text := s.toList.map Char.toNat

/-- Alphabetic code units: ASCII `a`-`z` or `A`-`Z`. -/
def isAlphaCode (c : ℕ) : Prop := (97 ≤ c ∧ c ≤ 122) ∨ (65 ≤ c ∧ c ≤ 90)

instance (c : ℕ) : Decidable (isAlphaCode c) := by
  unfold isAlphaCode; infer_instance

/-- Per-character arrow function of `ciphers.caesarEncrypt`:
`mod(code - base + shift, 26) + base` on the matching alphabetic range,
identity elsewhere. -/
def caesarChar (shift : ℤ) (c : ℕ) : ℕ :=
  if 97 ≤ c ∧ c ≤ 122 then (mod ((c : ℤ) - 97 + shift) 26 + 97).toNat
  else if 65 ≤ c ∧ c ≤ 90 then (mod ((c : ℤ) - 65 + shift) 26 + 65).toNat
  else c

/-- Model of `ciphers.caesarEncrypt`: shift alphabetic code units, keep the rest. -/
def caesarEncrypt (text : Text) (shift : ℤ) : Text :=
  text.map (caesarChar shift)

/-- Model of `ciphers.caesarDecrypt(text, shift) = caesarEncrypt(text, -shift)`. -/
def caesarDecrypt (text : Text) (shift : ℤ) : Text :=
  caesarEncrypt text (-shift)

/-- Per-character arrow function of `ciphers.affineEncrypt`:
`y = mod(a*x + b, 26)` on the matching alphabetic range. -/
def affineEncChar (a b : ℤ) (c : ℕ) : ℕ :=
  if 97 ≤ c ∧ c ≤ 122 then (mod (a * ((c : ℤ) - 97) + b) 26 + 97).toNat
  else if 65 ≤ c ∧ c ≤ 90 then (mod (a * ((c : ℤ) - 65) + b) 26 + 65).toNat
  else c

/-- Per-character arrow function of `ciphers.affineDecrypt`:
`x = mod(aInv * (y - b), 26)` on the matching alphabetic range. -/
def affineDecChar (aInv b : ℤ) (c : ℕ) : ℕ :=
  if 97 ≤ c ∧ c ≤ 122 then (mod (aInv * (((c : ℤ) - 97) - b)) 26 + 97).toNat
  else if 65 ≤ c ∧ c ≤ 90 then (mod (aInv * (((c : ℤ) - 65) - b)) 26 + 65).toNat
  else c

/-- Model of `ciphers.affineEncrypt`: `C = (a*P + b) mod 26` per alphabetic code unit,
after the `gcd(a, 26) !== 1` validity check. -/
def affineEncrypt (text : Text) (a b : ℤ) : Except String Text :=
  if gcd a 26 ≠ 1 then .error "Affine: a doit etre premier avec 26"
  else .ok (text.map (affineEncChar a b))

/-- Model of `ciphers.affineDecrypt`: `P = a_inv * (C - b) mod 26`, failing when
`modInverse(a, 26)` is `null`. -/
def affineDecrypt (text : Text) (a b : ℤ) : Except String Text :=
  match modInverse a 26 with
  | none => .error "Affine: impossible de calculer l inverse de a modulo 26"
  | some aInv => .ok (text.map (affineDecChar aInv b))

/-- ASCII model of JavaScript `toUpperCase` per code unit. -/
def toUpperCode (c : ℕ) : ℕ := if 97 ≤ c ∧ c ≤ 122 then c - 32 else c

/-- ASCII model of JavaScript `toLowerCase` per code unit. -/
def toLowerCode (c : ℕ) : ℕ := if 65 ≤ c ∧ c ≤ 90 then c + 32 else c

/-- Model of `text.toUpperCase().replace(/[^A-Z]/g, '')`: uppercase then keep only
`A`-`Z`.  Shared by the Playfair and Hill text preparation. -/
def upperFilter (t : Text) : Text :=
  (t.map toUpperCode).filter fun c => decide (65 ≤ c ∧ c ≤ 90)

/-- Model of `replace(/J/g, 'I')` on an uppercased text (74 = `J`, 73 = `I`). -/
def jToI (c : ℕ) : ℕ := if c = 74 then 73 else c

/-- The 25-letter Playfair alphabet `ABCDEFGHIKLMNOPQRSTUVWXYZ` (no `J`). -/
def alphabet25 : Text :=
  [65, 66, 67, 68, 69, 70, 71, 72, 73, 75, 76, 77,
   78, 79, 80, 81, 82, 83, 84, 85, 86, 87, 88, 89, 90]

/-- One step of the `seen`-set guarded `matrix.push(ch)` in
`buildPlayfairMatrix`: append the symbol unless already present. -/
def insertNew (acc : Text) (c : ℕ) : Text := if c ∈ acc then acc else acc ++ [c]

/-- Model of `ciphers.buildPlayfairMatrix`, flattened: first the key letters
(uppercased, `J` merged to `I`, non-letters dropped, first occurrence wins),
then the remaining alphabet, giving the row-major 5×5 grid. -/
def buildPlayfairMatrix (key : Text) : Text :=
  let keyUpper := ((key.map toUpperCode).map jToI).filter fun c =>
    decide (65 ≤ c ∧ c ≤ 90)
  let fromKey := keyUpper.foldl insertNew []
  alphabet25.foldl insertNew fromKey

/-- Index of the first occurrence of `c`, mirroring the row-major
`for row / for col` scan of `ciphers.findPosition` on the flattened grid. -/
def scanIdx (m : Text) (c : ℕ) : Option ℕ :=
  match m with
  | [] => none
  | d :: rest => if d = c then some 0 else (scanIdx rest c).map (· + 1)

/-- Model of `ciphers.findPosition`: `(row, col)` of a symbol in the 5×5 grid
(`row = i / 5`, `col = i % 5` for the flattened index `i`), `null` (`none`)
when the symbol is not among the 25 grid cells. -/
def findPosition (m : Text) (c : ℕ) : Option (ℤ × ℤ) :=
  match scanIdx m c with
  | some i => if i < 25 then some ((i : ℤ) / 5, (i : ℤ) % 5) else none
  | none => none

/-- Model of `matrix[r][c]` on the flattened grid.  All reads are in bounds on the
25-cell grids in use; the default (88 = `X`) is never reached there. -/
def gridGet (m : Text) (r c : ℤ) : ℕ := m.getD (5 * r + c).toNat 88

/-- Digram-building `while` loop of `ciphers.preparePlayfairText`:
a repeated symbol gets an `X` (88) filler and only advances one position,
a lone final symbol is padded with `X`. -/
def prepareDigrams : Text → List (ℕ × ℕ)
  | [] => []
  | [a] => [(a, 88)]
  | a :: b :: rest =>
    if a = b then (a, 88) :: prepareDigrams (b :: rest)
    else (a, b) :: prepareDigrams rest

/-- Model of `ciphers.preparePlayfairText`: uppercase, merge `J` into `I`, drop
non-letters, then split into digrams. -/
def preparePlayfairText (text : Text) : List (ℕ × ℕ) :=
  prepareDigrams (((text.map toUpperCode).map jToI).filter fun c =>
    decide (65 ≤ c ∧ c ≤ 90))

/-- Body of the `playfairEncrypt` loop for one digram: same row shifts right,
same column shifts down, otherwise the rectangle swap.  A symbol absent from
the grid makes `findPosition` return `null` and the JavaScript destructuring
crash, modelled as `none`. -/
def encryptDigram (m : Text) (d : ℕ × ℕ) : Option Text :=
  match findPosition m d.1, findPosition m d.2 with
  | some (r1, c1), some (r2, c2) =>
    if r1 = r2 then
      some [gridGet m r1 (jsrem (c1 + 1) 5), gridGet m r2 (jsrem (c2 + 1) 5)]
    else if c1 = c2 then
      some [gridGet m (jsrem (r1 + 1) 5) c1, gridGet m (jsrem (r2 + 1) 5) c2]
    else
      some [gridGet m r1 c2, gridGet m r2 c1]
  | _, _ => none

/-- The `for (const digram of digrams)` accumulation of `playfairEncrypt`. -/
def encryptDigrams (m : Text) : List (ℕ × ℕ) → Option Text
  | [] => some []
  | d :: rest =>
    match encryptDigram m d, encryptDigrams m rest with
    | some pair, some r => some (pair ++ r)
    | _, _ => none

/-- Model of `ciphers.playfairEncrypt`. -/
def playfairEncrypt (text key : Text) : Option Text :=
  encryptDigrams (buildPlayfairMatrix key) (preparePlayfairText text)

/-- Body of the `playfairDecrypt` loop for one pair: same row shifts left,
same column shifts up (`mod(x - 1, 5)`), otherwise the rectangle swap. -/
def decryptPair (m : Text) (a b : ℕ) : Option Text :=
  match findPosition m a, findPosition m b with
  | some (r1, c1), some (r2, c2) =>
    if r1 = r2 then
      some [gridGet m r1 (mod (c1 - 1) 5), gridGet m r2 (mod (c2 - 1) 5)]
    else if c1 = c2 then
      some [gridGet m (mod (r1 - 1) 5) c1, gridGet m (mod (r2 - 1) 5) c2]
    else
      some [gridGet m r1 c2, gridGet m r2 c1]
  | _, _ => none

/-- The `for (let i = 0; i < text.length; i += 2)` loop of `playfairDecrypt`.
On an odd-length tail the source reads `text[i + 1] = undefined`, so
`findPosition` returns `null` and the destructuring crashes: `none`. -/
def decryptPairs (m : Text) : Text → Option Text
  | [] => some []
  | [_] => none
  | a :: b :: rest =>
    match decryptPair m a b, decryptPairs m rest with
    | some pair, some r => some (pair ++ r)
    | _, _ => none

/-- Model of `ciphers.playfairDecrypt`: uppercase and strip non-letters (the `J` merge
is NOT applied here, unlike encryption), then decode pairwise. -/
def playfairDecrypt (text key : Text) : Option Text :=
  decryptPairs (buildPlayfairMatrix key)
    ((text.map toUpperCode).filter fun c => decide (65 ≤ c ∧ c ≤ 90))

/-- A 3×3 integer key matrix `[[m00,m01,m02],[m10,m11,m12],[m20,m21,m22]]`. -/
structure Mat3 where
  m00 : ℤ
  m01 : ℤ
  m02 : ℤ
  m10 : ℤ
  m11 : ℤ
  m12 : ℤ
  m20 : ℤ
  m21 : ℤ
  m22 : ℤ
  deriving DecidableEq

/-- Model of `ciphers.det3x3`. -/
def det3x3 (m : Mat3) : ℤ :=
  m.m00 * (m.m11 * m.m22 - m.m12 * m.m21)
    - m.m01 * (m.m10 * m.m22 - m.m12 * m.m20)
    + m.m02 * (m.m10 * m.m21 - m.m11 * m.m20)

/-- Model of `ciphers.adjugate3x3`: cofactors `c00..c22`, returned transposed, i.e.
row `i` of the result is `[c0i, c1i, c2i]`. -/
def adjugate3x3 (m : Mat3) : Mat3 where
  m00 := m.m11 * m.m22 - m.m12 * m.m21
  m01 := -(m.m01 * m.m22 - m.m02 * m.m21)
  m02 := m.m01 * m.m12 - m.m02 * m.m11
  m10 := -(m.m10 * m.m22 - m.m12 * m.m20)
  m11 := m.m00 * m.m22 - m.m02 * m.m20
  m12 := -(m.m00 * m.m12 - m.m02 * m.m10)
  m20 := m.m10 * m.m21 - m.m11 * m.m20
  m21 := -(m.m00 * m.m21 - m.m01 * m.m20)
  m22 := m.m00 * m.m11 - m.m01 * m.m10

/-- The `adj.map(row => row.map(val => mod(detInv * val, 26)))` step of
`inverseMatrix3x3Mod26`. -/
def scaleAdjMod26 (adj : Mat3) (detInv : ℤ) : Mat3 where
  m00 := mod (detInv * adj.m00) 26
  m01 := mod (detInv * adj.m01) 26
  m02 := mod (detInv * adj.m02) 26
  m10 := mod (detInv * adj.m10) 26
  m11 := mod (detInv * adj.m11) 26
  m12 := mod (detInv * adj.m12) 26
  m20 := mod (detInv * adj.m20) 26
  m21 := mod (detInv * adj.m21) 26
  m22 := mod (detInv * adj.m22) 26

/-- Model of `ciphers.inverseMatrix3x3Mod26`: check `gcd(det mod 26, 26) = 1`, then
scale the adjugate by the modular inverse of the determinant.  The source
never checks `modInverse` for `null` here; a `null` would multiply as 0 in
JavaScript, hence `getD 0` (unreachable after the gcd check). -/
def inverseMatrix3x3Mod26 (m : Mat3) : Except String Mat3 :=
  let d := det3x3 m
  let detMod := mod d 26
  if gcd detMod 26 ≠ 1 then
    .error "Hill: det K nest pas premier avec 26. Matrice non inversible."
  else
    .ok (scaleAdjMod26 (adjugate3x3 m) ((modInverse detMod 26).getD 0))

/-- Model of `ciphers.matrixVectorMult3` on a 3-vector, each entry `mod 26`. -/
def matrixVectorMult3 (m : Mat3) (v0 v1 v2 : ℤ) : ℤ × ℤ × ℤ :=
  (mod (m.m00 * v0 + m.m01 * v1 + m.m02 * v2) 26,
   mod (m.m10 * v0 + m.m11 * v1 + m.m12 * v2) 26,
   mod (m.m20 * v0 + m.m21 * v1 + m.m22 * v2) 26)

/-- Per-character body of `ciphers.textToVector`:
`ch.toUpperCase().charCodeAt(0) - 65`, clamped to `[0, 26)` else 0. -/
def codeToVec (c : ℕ) : ℤ :=
  let x : ℤ := (toUpperCode c : ℤ) - 65
  if 0 ≤ x ∧ x < 26 then x else 0

/-- Model of `ciphers.vectorToText`: each entry back to a letter code. -/
def vecToText (v : ℤ × ℤ × ℤ) : Text :=
  [(mod v.1 26 + 65).toNat, (mod v.2.1 26 + 65).toNat, (mod v.2.2 26 + 65).toNat]

/-- The `for (let i = 0; i < text.length; i += 3)` block loop shared by
`hillEncrypt` and `hillDecrypt`.  A trailing 1- or 2-symbol block (possible
only in `hillDecrypt`, which does not pad) reads `vector[j] = undefined` in
JavaScript, so every row sum is `NaN`, `mod(NaN, 26)` stays `NaN`, and
`String.fromCharCode(NaN)` emits the NUL character: such a block becomes
`[0, 0, 0]`, whatever its symbols and the key. -/
def hillBlocks (k : Mat3) : Text → Text
  | [] => []
  | a :: b :: c :: rest =>
    vecToText (matrixVectorMult3 k (codeToVec a) (codeToVec b) (codeToVec c))
      ++ hillBlocks k rest
  | _ => [0, 0, 0]

/-- Model of `while (text.length % 3 !== 0) text += 'X'` (88 = `X`). -/
def hillPad (t : Text) : Text := t ++ List.replicate ((3 - t.length % 3) % 3) 88

/-- Model of `ciphers.hillEncrypt`: uppercase, strip non-letters, pad, encode blocks. -/
def hillEncrypt (text : Text) (k : Mat3) : Text :=
  hillBlocks k (hillPad (upperFilter text))

/-- Model of `ciphers.hillDecrypt`: uppercase, strip non-letters, invert the key
matrix (may fail), decode blocks.  No padding on this side. -/
def hillDecrypt (text : Text) (k : Mat3) : Except String Text :=
  match inverseMatrix3x3Mod26 k with
  | .error e => .error e
  | .ok inv => .ok (hillBlocks inv (upperFilter text))

/-- Model of `attacks.bruteForceCaesar`: decrypt under every shift `0..25`. -/
def bruteForceCaesar (ct : Text) : List (ℕ × Text) :=
  (List.range 26).map fun shift => (shift, caesarDecrypt ct (shift : ℤ))

/-- The pre-filtered multiplier list of `attacks.bruteForceAffine`. -/
def validAList : List ℤ := [1, 3, 5, 7, 9, 11, 15, 17, 19, 21, 23, 25]

/-- Model of `attacks.bruteForceAffine`: try every `(a, b)` with `a` in the valid
list and `b` in `0..25`; the `try`/`catch` drops failing decryptions. -/
def bruteForceAffine (ct : Text) : List (ℤ × ℕ × Text) :=
  validAList.flatMap fun a => (List.range 26).flatMap fun b =>
    match affineDecrypt ct a (b : ℤ) with
    | .ok t => [(a, b, t)]
    | .error _ => []

/-- The `(a, b)` enumeration order of `bruteForceAffine`. -/
def affineKeyPairs : List (ℤ × ℕ) :=
  validAList.flatMap fun a => (List.range 26).map fun b => (a, b)

/-- The optional `params` record of `attacks.dictionaryDirectAttack`. -/
structure AttackParams where
  shift : Option ℤ := none
  a : Option ℤ := none
  b : Option ℤ := none
  key : Option Text := none
  keyMatrix : Option Mat3 := none

/-- JavaScript `v || dflt` on a possibly-missing number: `0` is falsy. -/
def jsOrInt (v : Option ℤ) (dflt : ℤ) : ℤ :=
  match v with
  | some n => if n = 0 then dflt else n
  | none => dflt

/-- JavaScript `v || dflt` on a possibly-missing string: `''` is falsy. -/
def jsOrText (v : Option Text) (dflt : Text) : Text :=
  match v with
  | some s => if s = [] then dflt else s
  | none => dflt

/-- The fallback Hill key `[[6,24,1],[13,16,10],[20,17,15]]` of
`dictionaryDirectAttack`. -/
def defaultHillKey : Mat3 := ⟨6, 24, 1, 13, 16, 10, 20, 17, 15⟩

/-- The `switch (cipher)` encryption step of `dictionaryDirectAttack`.
A thrown error (including the Playfair crash, caught by the `try`) is an
`Except.error`. -/
def encodeWord (cipher : String) (params : AttackParams) (word : Text) :
    Except String Text :=
  match cipher with
  | "caesar" => .ok (caesarEncrypt word (jsOrInt params.shift 3))
  | "affine" => affineEncrypt word (jsOrInt params.a 5) (jsOrInt params.b 8)
  | "playfair" =>
    match playfairEncrypt word (jsOrText params.key (str "SECRET")) with
    | some t => .ok t
    | none => .error "TypeError"
  | "hill" => .ok (hillEncrypt word (params.keyMatrix.getD defaultHillKey))
  | _ => .ok word

/-- Model of `attacks.dictionaryDirectAttack`: re-encode every wordlist entry under
the given cipher and key, pushing case-insensitive matches; entries whose
encoding throws are skipped by the `catch` and the loop continues. -/
def dictionaryDirectAttack (ciphertext : Text) (words : List Text)
    (cipher : String) (params : AttackParams) : List Text :=
  words.foldl (fun acc word =>
    match encodeWord cipher params word with
    | .ok enc =>
      if enc.map toLowerCode = ciphertext.map toLowerCode then acc ++ [word]
      else acc
    | .error _ => acc) []

/-- The per-word success test of `dictionaryDirectAttack`, as a predicate:
encoding succeeded and matches the ciphertext case-insensitively. -/
def dictMatches (ciphertext : Text) (cipher : String) (params : AttackParams)
    (word : Text) : Bool :=
  match encodeWord cipher params word with
  | .ok enc => decide (enc.map toLowerCode = ciphertext.map toLowerCode)
  | .error _ => false

/-! ### Arithmetic bridge lemmas -/

theorem natAbs_jsrem (a b : ℤ) : (jsrem a b).natAbs = a.natAbs % b.natAbs := by
  cases a <;> cases b <;> first
    | rfl
    | (simp [jsrem, Int.tmod, Int.natAbs_neg]; norm_cast)

theorem jsrem_emod (a b : ℤ) : jsrem a b % b = a % b := by
  have h : jsrem a b = a + b * (-(a.tdiv b)) := by
    have := Int.tmod_def a b
    simp only [jsrem, this]; ring
  rw [h, Int.add_mul_emod_self_left]

theorem mod_eq_emod (n m : ℤ) (hm : 0 < m) : mod n m = n % m := by
  have habs : (jsrem n m).natAbs < m.natAbs := by
    rw [natAbs_jsrem]
    exact Nat.mod_lt _ (by omega)
  have hlt : |jsrem n m| < m := by
    calc |jsrem n m| = ((jsrem n m).natAbs : ℤ) := Int.abs_eq_natAbs _
    _ < (m.natAbs : ℤ) := by exact_mod_cast habs
    _ = m := Int.natAbs_of_nonneg hm.le
  have hge : -m < jsrem n m := (abs_lt.mp hlt).1
  have h0 : 0 ≤ jsrem n m + m := by omega
  show jsrem (jsrem n m + m) m = n % m
  rw [show jsrem (jsrem n m + m) m = (jsrem n m + m).tmod m from rfl,
    Int.tmod_eq_emod h0 hm.le,
    show jsrem n m + m = jsrem n m + m * 1 by ring,
    Int.add_mul_emod_self_left, jsrem_emod]

theorem mod_nonneg_lt (n m : ℤ) (hm : 0 < m) : 0 ≤ mod n m ∧ mod n m < m := by
  rw [mod_eq_emod n m hm]
  exact ⟨Int.emod_nonneg n (by omega), Int.emod_lt_of_pos n hm⟩

theorem gcdAux_congr : ∀ (f g : ℕ) (a b : ℤ), b.natAbs < f → b.natAbs < g →
    gcdAux f a b = gcdAux g a b := by
  intro f
  induction f with
  | zero => intro g a b h; omega
  | succ f ih =>
    intro g a b hf hg
    cases g with
    | zero => omega
    | succ g =>
      show (if b = 0 then a else gcdAux f b (jsrem a b)) =
        (if b = 0 then a else gcdAux g b (jsrem a b))
      by_cases hb : b = 0
      · simp [hb]
      · have hlt : (jsrem a b).natAbs < b.natAbs := by
          rw [natAbs_jsrem]
          exact Nat.mod_lt _ (by omega)
        simp only [hb, if_false]
        exact ih g b (jsrem a b) (by omega) (by omega)

theorem gcd_zero_right (a : ℤ) : gcd a 0 = a := rfl

theorem gcd_step (a b : ℤ) (hb : b ≠ 0) : gcd a b = gcd b (jsrem a b) := by
  have hlt : (jsrem a b).natAbs < b.natAbs := by
    rw [natAbs_jsrem]
    exact Nat.mod_lt _ (by omega)
  show (if b = 0 then a else gcdAux b.natAbs b (jsrem a b)) = _
  simp only [hb, if_false]
  exact gcdAux_congr _ _ _ _ hlt (Nat.lt_succ_self _)

theorem natAbs_gcd : ∀ (n : ℕ) (a b : ℤ), b.natAbs = n →
    (gcd a b).natAbs = Int.gcd a b := by
  intro n
  induction n using Nat.strong_induction_on with
  | _ n ih =>
    intro a b hn
    by_cases hb : b = 0
    · subst hb
      simp [gcd_zero_right, Int.gcd]
    · have hlt : (jsrem a b).natAbs < b.natAbs := by
        rw [natAbs_jsrem]
        exact Nat.mod_lt _ (by omega)
      rw [gcd_step a b hb, ih (jsrem a b).natAbs (by omega) b (jsrem a b) rfl]
      show Int.gcd b (jsrem a b) = Int.gcd a b
      unfold Int.gcd
      rw [natAbs_jsrem, Nat.gcd_comm b.natAbs _, ← Nat.gcd_rec, Nat.gcd_comm]

theorem gcd_natAbs (a b : ℤ) : (gcd a b).natAbs = Int.gcd a b :=
  natAbs_gcd b.natAbs a b rfl

theorem gcd_nonneg : ∀ (n : ℕ) (a b : ℤ), b.natAbs = n → 0 ≤ a → 0 ≤ b →
    0 ≤ gcd a b := by
  intro n
  induction n using Nat.strong_induction_on with
  | _ n ih =>
    intro a b hn ha hb
    by_cases hb0 : b = 0
    · subst hb0; rw [gcd_zero_right]; exact ha
    · have hlt : (jsrem a b).natAbs < b.natAbs := by
        rw [natAbs_jsrem]
        exact Nat.mod_lt _ (by omega)
      rw [gcd_step a b hb0]
      exact ih (jsrem a b).natAbs (by omega) b (jsrem a b) rfl hb
        (Int.tmod_nonneg b ha)

theorem gcd_of_nonneg (a b : ℤ) (ha : 0 ≤ a) (hb : 0 ≤ b) :
    gcd a b = (Int.gcd a b : ℤ) := by
  rw [← gcd_natAbs a b]
  exact (Int.natAbs_of_nonneg (gcd_nonneg b.natAbs a b rfl ha hb)).symm

theorem gcd_eq_one_iff_int_gcd (a b : ℤ) : gcd a b = 1 ↔
    (Int.gcd a b = 1 ∧ 0 < gcd a b) := by
  constructor
  · intro h
    refine ⟨?_, by omega⟩
    rw [← gcd_natAbs, h]; rfl
  · intro ⟨h1, h2⟩
    have := gcd_natAbs a b
    omega

theorem mod26 (n : ℤ) : mod n 26 = n % 26 := mod_eq_emod n 26 (by norm_num)

theorem mod5 (n : ℤ) : mod n 5 = n % 5 := mod_eq_emod n 5 (by norm_num)

/-! ### Shift cipher lemmas -/

theorem caesarChar_shift_mod (s : ℤ) (c : ℕ) :
    caesarChar s c = caesarChar (s % 26) c := by
  unfold caesarChar
  by_cases h1 : 97 ≤ c ∧ c ≤ 122
  · rw [if_pos h1, if_pos h1, mod26, mod26]
    congr 1
    omega
  · by_cases h2 : 65 ≤ c ∧ c ≤ 90
    · rw [if_neg h1, if_neg h1, if_pos h2, if_pos h2, mod26, mod26]
      congr 1
      omega
    · rw [if_neg h1, if_neg h1, if_neg h2, if_neg h2]

theorem caesarChar_cancel (s : ℤ) (c : ℕ) :
    caesarChar (-s) (caesarChar s c) = c := by
  by_cases h1 : 97 ≤ c ∧ c ≤ 122
  · have hm := mod_nonneg_lt ((c : ℤ) - 97 + s) 26 (by norm_num)
    have hc' : (((mod ((c : ℤ) - 97 + s) 26 + 97).toNat : ℕ) : ℤ) =
        mod ((c : ℤ) - 97 + s) 26 + 97 := Int.toNat_of_nonneg (by omega)
    have hinner : caesarChar s c = (mod ((c : ℤ) - 97 + s) 26 + 97).toNat := by
      rw [caesarChar, if_pos h1]
    rw [hinner, caesarChar,
      if_pos (show 97 ≤ (mod ((c : ℤ) - 97 + s) 26 + 97).toNat ∧
        (mod ((c : ℤ) - 97 + s) 26 + 97).toNat ≤ 122 by constructor <;> omega)]
    rw [hc', mod26, mod26]
    omega
  · by_cases h2 : 65 ≤ c ∧ c ≤ 90
    · have hm := mod_nonneg_lt ((c : ℤ) - 65 + s) 26 (by norm_num)
      have hc' : (((mod ((c : ℤ) - 65 + s) 26 + 65).toNat : ℕ) : ℤ) =
          mod ((c : ℤ) - 65 + s) 26 + 65 := Int.toNat_of_nonneg (by omega)
      have hinner : caesarChar s c = (mod ((c : ℤ) - 65 + s) 26 + 65).toNat := by
        rw [caesarChar, if_neg h1, if_pos h2]
      rw [hinner, caesarChar,
        if_neg (show ¬(97 ≤ (mod ((c : ℤ) - 65 + s) 26 + 65).toNat ∧
          (mod ((c : ℤ) - 65 + s) 26 + 65).toNat ≤ 122) by
            intro ⟨hx, _⟩; omega),
        if_pos (show 65 ≤ (mod ((c : ℤ) - 65 + s) 26 + 65).toNat ∧
          (mod ((c : ℤ) - 65 + s) 26 + 65).toNat ≤ 90 by constructor <;> omega)]
      rw [hc', mod26, mod26]
      omega
    · have hinner : caesarChar s c = c := by
        rw [caesarChar, if_neg h1, if_neg h2]
      rw [hinner, caesarChar, if_neg h1, if_neg h2]

theorem caesarChar_nonalpha (s : ℤ) (c : ℕ) (h : ¬ isAlphaCode c) :
    caesarChar s c = c := by
  unfold isAlphaCode at h
  rw [caesarChar, if_neg (fun h1 => h (Or.inl h1)), if_neg (fun h2 => h (Or.inr h2))]

/-- C10: `caesarEncrypt` and `caesarDecrypt` are total over every integer
shift: the shift only matters modulo 26, decryption is encryption with the
negated shift, and the round trip is the identity for every integer shift. -/
theorem C10_caesar_total_every_shift (T : Text) (s : ℤ) :
    caesarEncrypt T s = caesarEncrypt T (s % 26) ∧
    caesarDecrypt T s = caesarEncrypt T (-s) ∧
    caesarDecrypt (caesarEncrypt T s) s = T := by
  refine ⟨?_, rfl, ?_⟩
  · unfold caesarEncrypt
    exact List.map_congr_left fun c _ => caesarChar_shift_mod s c
  · unfold caesarDecrypt caesarEncrypt
    rw [List.map_map]
    have : (caesarChar (-s) ∘ caesarChar s) = fun c => caesarChar (-s) (caesarChar s c) :=
      rfl
    rw [this]
    calc T.map (fun c => caesarChar (-s) (caesarChar s c)) = T.map id := by
          exact List.map_congr_left fun c _ => caesarChar_cancel s c
    _ = T := List.map_id T

/-! ### Modular inverse machinery -/

theorem int_gcd_emod (a n : ℤ) : Int.gcd (a % n) n = Int.gcd a n := by
  have hsplit : a = a % n + n * (a / n) := (Int.emod_add_ediv a n).symm
  apply Nat.dvd_antisymm
  · apply Int.natCast_dvd_natCast.mp
    refine Int.dvd_gcd ?_ Int.gcd_dvd_right
    calc (Int.gcd (a % n) n : ℤ) ∣ a % n + n * (a / n) :=
          dvd_add Int.gcd_dvd_left (Dvd.dvd.mul_right Int.gcd_dvd_right _)
    _ = a := hsplit.symm
  · apply Int.natCast_dvd_natCast.mp
    refine Int.dvd_gcd ?_ Int.gcd_dvd_right
    have : a % n = a - n * (a / n) := by omega
    rw [this]
    exact dvd_sub Int.gcd_dvd_left (Dvd.dvd.mul_right Int.gcd_dvd_right _)

theorem invSearch (A : ℕ) (hA : A < 26) (h : Nat.gcd A 26 = 1) :
    ∃ x ∈ List.range' 1 25, (A * x) % 26 = 1 := by
  interval_cases A <;> revert h <;> decide

theorem modInverse_26_spec (a : ℤ) (h : Int.gcd a 26 = 1) :
    ∃ v, modInverse a 26 = some v ∧ 0 ≤ v ∧ ((a % 26) * v) % 26 = 1 := by
  have hnn : 0 ≤ a % 26 := Int.emod_nonneg a (by norm_num)
  have hlt : a % 26 < 26 := Int.emod_lt_of_pos a (by norm_num)
  set A : ℕ := (a % 26).toNat with hAdef
  have hcast : ((A : ℕ) : ℤ) = a % 26 := Int.toNat_of_nonneg hnn
  have hAlt : A < 26 := by omega
  have hgA : Nat.gcd A 26 = 1 := by
    calc Nat.gcd A 26 = Int.gcd ((A : ℕ) : ℤ) 26 := rfl
    _ = Int.gcd (a % 26) 26 := by rw [hcast]
    _ = Int.gcd a 26 := int_gcd_emod a 26
    _ = 1 := h
  have hnorm : jsrem (jsrem a 26 + 26) 26 = ((A : ℕ) : ℤ) := by
    rw [hcast]
    exact mod26 a
  have hpred : (fun x : ℕ => decide (jsrem (jsrem (jsrem a 26 + 26) 26 * (x : ℤ)) 26 = 1)) =
      fun x : ℕ => decide ((A * x) % 26 = 1) := by
    funext x
    rw [hnorm]
    rw [show ((A : ℤ) * (x : ℤ)) = ((A * x : ℕ) : ℤ) by push_cast; ring]
    rw [show jsrem ((A * x : ℕ) : ℤ) 26 = (((A * x) % 26 : ℕ) : ℤ) from
      (Int.ofNat_tmod (A * x) 26).symm]
    apply decide_eq_decide.mpr
    exact_mod_cast Iff.rfl
  have hunfold : modInverse a 26 =
      ((List.range' 1 25).find? fun (x : ℕ) => decide ((A * x) % 26 = 1)).map
        fun (x : ℕ) => (x : ℤ) := by
    rw [show modInverse a 26 =
      ((List.range' 1 ((26 : ℤ) - 1).toNat).find? fun (x : ℕ) =>
        decide (jsrem (jsrem (jsrem a 26 + 26) 26 * (x : ℤ)) 26 = 1)).map
        (fun (x : ℕ) => (x : ℤ)) from rfl, hpred]
    rfl
  obtain ⟨x, hxmem, hxeq⟩ := invSearch A hAlt hgA
  have hsome : ((List.range' 1 25).find? fun (x : ℕ) => decide ((A * x) % 26 = 1)).isSome := by
    rw [List.find?_isSome]
    exact ⟨x, hxmem, by simpa using hxeq⟩
  obtain ⟨v', hv'⟩ := Option.isSome_iff_exists.mp hsome
  have hprop : (A * v') % 26 = 1 := by
    have := List.find?_some hv'
    simpa using this
  refine ⟨(v' : ℤ), ?_, by positivity, ?_⟩
  · rw [hunfold, hv']
    rfl
  · rw [← hcast]
    rw [show ((A : ℤ) * (v' : ℤ)) = (((A * v' : ℕ)) : ℤ) by push_cast; ring]
    rw [show (((A * v' : ℕ)) : ℤ) % 26 = (((A * v') % 26 : ℕ) : ℤ) by push_cast; ring]
    rw [hprop]
    rfl

/-! ### Affine cipher round trip -/

theorem affine_dec_enc (aI a b x : ℤ) (hv : ((a % 26) * aI) % 26 = 1)
    (hx0 : 0 ≤ x) (hx26 : x < 26) :
    (aI * ((a * x + b) % 26 - b)) % 26 = x := by
  have h1 : (a * x + b) % 26 ≡ a * x + b [ZMOD 26] :=
    Int.emod_emod_of_dvd _ dvd_rfl
  have h2 : aI * ((a * x + b) % 26 - b) ≡ aI * (a * x + b - b) [ZMOD 26] :=
    (Int.ModEq.refl aI).mul (h1.sub (Int.ModEq.refl b))
  have h3 : aI * (a * x + b - b) = (a * aI) * x := by ring
  have h4 : a ≡ a % 26 [ZMOD 26] := (Int.emod_emod_of_dvd _ dvd_rfl).symm
  have h5 : (a * aI) * x ≡ ((a % 26) * aI) * x [ZMOD 26] :=
    (h4.mul (Int.ModEq.refl aI)).mul (Int.ModEq.refl x)
  have h6 : ((a % 26) * aI) * x ≡ 1 * x [ZMOD 26] := by
    refine Int.ModEq.mul ?_ (Int.ModEq.refl x)
    show ((a % 26) * aI) % 26 = 1 % 26
    rw [hv]
    decide
  have hchain : aI * ((a * x + b) % 26 - b) ≡ x [ZMOD 26] := by
    calc aI * ((a * x + b) % 26 - b) ≡ aI * (a * x + b - b) [ZMOD 26] := h2
    _ = (a * aI) * x := h3
    _ ≡ ((a % 26) * aI) * x [ZMOD 26] := h5
    _ ≡ 1 * x [ZMOD 26] := h6
    _ = x := one_mul x
  calc (aI * ((a * x + b) % 26 - b)) % 26 = x % 26 := hchain
  _ = x := Int.emod_eq_of_lt hx0 hx26

theorem affineChar_cancel (a b aI : ℤ) (hv : ((a % 26) * aI) % 26 = 1) (c : ℕ) :
    affineDecChar aI b (affineEncChar a b c) = c := by
  by_cases h1 : 97 ≤ c ∧ c ≤ 122
  · have hm := mod_nonneg_lt (a * ((c : ℤ) - 97) + b) 26 (by norm_num)
    have hc' : (((mod (a * ((c : ℤ) - 97) + b) 26 + 97).toNat : ℕ) : ℤ) =
        mod (a * ((c : ℤ) - 97) + b) 26 + 97 := Int.toNat_of_nonneg (by omega)
    have hinner : affineEncChar a b c = (mod (a * ((c : ℤ) - 97) + b) 26 + 97).toNat := by
      rw [affineEncChar, if_pos h1]
    rw [hinner, affineDecChar,
      if_pos (show 97 ≤ (mod (a * ((c : ℤ) - 97) + b) 26 + 97).toNat ∧
        (mod (a * ((c : ℤ) - 97) + b) 26 + 97).toNat ≤ 122 by constructor <;> omega)]
    rw [hc']
    rw [show mod (a * ((c : ℤ) - 97) + b) 26 + 97 - 97 - b =
      (a * ((c : ℤ) - 97) + b) % 26 - b by rw [mod26]; ring]
    rw [mod26, affine_dec_enc aI a b ((c : ℤ) - 97) hv (by omega) (by omega)]
    omega
  · by_cases h2 : 65 ≤ c ∧ c ≤ 90
    · have hm := mod_nonneg_lt (a * ((c : ℤ) - 65) + b) 26 (by norm_num)
      have hc' : (((mod (a * ((c : ℤ) - 65) + b) 26 + 65).toNat : ℕ) : ℤ) =
          mod (a * ((c : ℤ) - 65) + b) 26 + 65 := Int.toNat_of_nonneg (by omega)
      have hinner : affineEncChar a b c = (mod (a * ((c : ℤ) - 65) + b) 26 + 65).toNat := by
        rw [affineEncChar, if_neg h1, if_pos h2]
      rw [hinner, affineDecChar,
        if_neg (show ¬(97 ≤ (mod (a * ((c : ℤ) - 65) + b) 26 + 65).toNat ∧
          (mod (a * ((c : ℤ) - 65) + b) 26 + 65).toNat ≤ 122) by
            intro ⟨hx, _⟩; omega),
        if_pos (show 65 ≤ (mod (a * ((c : ℤ) - 65) + b) 26 + 65).toNat ∧
          (mod (a * ((c : ℤ) - 65) + b) 26 + 65).toNat ≤ 90 by constructor <;> omega)]
      rw [hc']
      rw [show mod (a * ((c : ℤ) - 65) + b) 26 + 65 - 65 - b =
        (a * ((c : ℤ) - 65) + b) % 26 - b by rw [mod26]; ring]
      rw [mod26, affine_dec_enc aI a b ((c : ℤ) - 65) hv (by omega) (by omega)]
      omega
    · have hinner : affineEncChar a b c = c := by
        rw [affineEncChar, if_neg h1, if_neg h2]
      rw [hinner, affineDecChar, if_neg h1, if_neg h2]

/-- C2: for every key `(a, b)` accepted by the affine validity check (the
code's `gcd(a, 26) === 1`, satisfied in particular by every spec-valid key
with `a ∈ {1,3,5,7,9,11,15,17,19,21,23,25}`) and every text, affine
decryption inverts affine encryption. -/
theorem C2_affine_roundtrip (T : Text) (a b : ℤ) (h : gcd a 26 = 1) :
    (affineEncrypt T a b).bind (fun c => affineDecrypt c a b) = .ok T := by
  have hgcd : Int.gcd a 26 = 1 := ((gcd_eq_one_iff_int_gcd a 26).mp h).1
  obtain ⟨v, hv, hv0, hvinv⟩ := modInverse_26_spec a hgcd
  rw [affineEncrypt, if_neg (fun hne => hne h)]
  show affineDecrypt (T.map (affineEncChar a b)) a b = .ok T
  rw [affineDecrypt]
  rw [hv]
  show Except.ok ((T.map (affineEncChar a b)).map (affineDecChar v b)) = Except.ok T
  rw [List.map_map]
  congr 1
  calc T.map (affineDecChar v b ∘ affineEncChar a b) = T.map id :=
        List.map_congr_left fun c _ => affineChar_cancel a b v hvinv c
  _ = T := List.map_id T

/-- Witness for C2 at the key (5, 8) on a mixed-case text with punctuation. -/
theorem C2_affine_roundtrip_witness :
    gcd 5 26 = 1 ∧
      (affineEncrypt (str "Hello, World!") 5 8).bind
        (fun c => affineDecrypt c 5 8) = .ok (str "Hello, World!") :=
  ⟨by decide, C2_affine_roundtrip (str "Hello, World!") 5 8 (by decide)⟩

/-- C6 as stated quantifies over every integer `a`, and is refuted by
`a = 27`: it lies outside the valid multiplier set, yet `affineEncrypt`
succeeds because `gcd(27, 26) = 1` (27 ≡ 1 mod 26). -/
theorem C6_counterexample :
    affineEncrypt (str "ab") 27 0 = .ok (str "ab") ∧ (27 : ℤ) ∉ validAList := by
  constructor
  · rfl
  · decide

/-- C6 amended: restricted to the canonical key range `0 ≤ a < 26`,
`affineEncrypt` fails exactly for `a` outside `{1,3,5,7,9,11,15,17,19,21,
23,25}`, equivalently exactly when `gcd(a, 26) ≠ 1`.  (For a general
integer `a` the code tests its own Euclid `gcd(a, 26) === 1`, so, e.g.,
`a = 27` succeeds.) -/
theorem C6_amended_affine_invalid_key (T : Text) (a b : ℤ)
    (h0 : 0 ≤ a) (h26 : a < 26) :
    ((∃ e, affineEncrypt T a b = .error e) ↔ a ∉ validAList) ∧
    (a ∉ validAList ↔ Int.gcd a 26 ≠ 1) := by
  have hiff : Int.gcd a 26 = 1 ↔ a ∈ validAList := by
    interval_cases a <;> decide
  have hg : gcd a 26 = ((Int.gcd a 26 : ℕ) : ℤ) := gcd_of_nonneg a 26 h0 (by norm_num)
  by_cases hmem : a ∈ validAList
  · have h1 : Int.gcd a 26 = 1 := hiff.mpr hmem
    have h2 : gcd a 26 = 1 := by rw [hg, h1]; rfl
    refine ⟨⟨?_, ?_⟩, ⟨?_, ?_⟩⟩
    · rintro ⟨e, he⟩
      rw [affineEncrypt, if_neg (fun hh => hh h2)] at he
      cases he
    · intro hn; exact absurd hmem hn
    · intro hn; exact absurd hmem hn
    · intro hne; exact absurd h1 hne
  · have h1 : Int.gcd a 26 ≠ 1 := fun hh => hmem (hiff.mp hh)
    have h2 : gcd a 26 ≠ 1 := by
      rw [hg]; intro hh; apply h1; exact_mod_cast hh
    refine ⟨⟨?_, ?_⟩, ⟨?_, ?_⟩⟩
    · intro _; exact hmem
    · intro _; exact ⟨_, by rw [affineEncrypt, if_pos h2]⟩
    · intro _; exact h1
    · intro _; exact hmem

/-- Witness for the amended C6 at `a = 4` (an invalid multiplier). -/
theorem C6_amended_witness :
    (0 : ℤ) ≤ 4 ∧ (4 : ℤ) < 26 ∧
      (((∃ e, affineEncrypt (str "x") 4 0 = .error e) ↔ (4 : ℤ) ∉ validAList) ∧
        ((4 : ℤ) ∉ validAList ↔ Int.gcd 4 26 ≠ 1)) :=
  ⟨by norm_num, by norm_num,
    C6_amended_affine_invalid_key (str "x") 4 0 (by norm_num) (by norm_num)⟩

/-! ### Hill cipher lemmas -/

theorem mod_idem26 (E : ℤ) (h0 : 0 ≤ E) (h1 : E < 26) : mod E 26 = E := by
  rw [mod26]
  exact Int.emod_eq_of_lt h0 h1

theorem codeToVec_upper (c : ℕ) (h : 65 ≤ c ∧ c ≤ 90) :
    codeToVec c = (c : ℤ) - 65 := by
  rw [codeToVec, toUpperCode, if_neg (show ¬(97 ≤ c ∧ c ≤ 122) by
    intro ⟨hx, _⟩; omega)]
  rw [if_pos (show (0 : ℤ) ≤ (c : ℤ) - 65 ∧ (c : ℤ) - 65 < 26 by
    constructor <;> omega)]

theorem codeToVec_encoded (E : ℤ) (h0 : 0 ≤ E) (h1 : E < 26) :
    codeToVec ((E + 65).toNat) = E := by
  have hc : (((E + 65).toNat : ℕ) : ℤ) = E + 65 := Int.toNat_of_nonneg (by omega)
  rw [codeToVec_upper ((E + 65).toNat) (by constructor <;> omega), hc]
  ring

theorem hill_decode_entry (d v w0 w1 w2 s0 s1 s2 x : ℤ)
    (hv : ((d % 26) * v) % 26 = 1)
    (hx : 0 ≤ x) (hx' : x < 26)
    (hsum : w0 * s0 + w1 * s1 + w2 * s2 = d * x) :
    mod (mod (v * w0) 26 * mod s0 26 + mod (v * w1) 26 * mod s1 26 +
      mod (v * w2) 26 * mod s2 26) 26 = x := by
  simp only [mod26]
  have hw : ∀ (w s : ℤ), (v * w) % 26 * (s % 26) ≡ (v * w) * s [ZMOD 26] :=
    fun w s =>
      Int.ModEq.mul (Int.emod_emod_of_dvd _ dvd_rfl) (Int.emod_emod_of_dvd _ dvd_rfl)
  have hsum2 : (v * w0) * s0 + (v * w1) * s1 + (v * w2) * s2 = v * (d * x) := by
    rw [← hsum]; ring
  have hd : v * (d * x) ≡ v * ((d % 26) * x) [ZMOD 26] := by
    have hdm : d ≡ d % 26 [ZMOD 26] := (Int.emod_emod_of_dvd _ dvd_rfl).symm
    exact (Int.ModEq.refl v).mul (hdm.mul (Int.ModEq.refl x))
  have h2 : ((d % 26) * v) * x ≡ 1 * x [ZMOD 26] := by
    refine Int.ModEq.mul ?_ (Int.ModEq.refl x)
    show ((d % 26) * v) % 26 = 1 % 26
    rw [hv]
    decide
  have hchain : (v * w0) % 26 * (s0 % 26) + (v * w1) % 26 * (s1 % 26) +
      (v * w2) % 26 * (s2 % 26) ≡ x [ZMOD 26] := by
    calc (v * w0) % 26 * (s0 % 26) + (v * w1) % 26 * (s1 % 26) +
        (v * w2) % 26 * (s2 % 26)
        ≡ (v * w0) * s0 + (v * w1) * s1 + (v * w2) * s2 [ZMOD 26] :=
          ((hw w0 s0).add (hw w1 s1)).add (hw w2 s2)
    _ = v * (d * x) := hsum2
    _ ≡ v * ((d % 26) * x) [ZMOD 26] := hd
    _ = ((d % 26) * v) * x := by ring
    _ ≡ 1 * x [ZMOD 26] := h2
    _ = x := one_mul x
  calc ((v * w0) % 26 * (s0 % 26) + (v * w1) % 26 * (s1 % 26) +
      (v * w2) % 26 * (s2 % 26)) % 26 = x % 26 := hchain
  _ = x := Int.emod_eq_of_lt hx hx'

theorem hill_vec_cancel (M : Mat3) (v : ℤ)
    (hv : ((det3x3 M % 26) * v) % 26 = 1)
    (x0 x1 x2 : ℤ)
    (h0 : 0 ≤ x0 ∧ x0 < 26) (h1 : 0 ≤ x1 ∧ x1 < 26) (h2 : 0 ≤ x2 ∧ x2 < 26) :
    matrixVectorMult3 (scaleAdjMod26 (adjugate3x3 M) v)
      (matrixVectorMult3 M x0 x1 x2).1
      (matrixVectorMult3 M x0 x1 x2).2.1
      (matrixVectorMult3 M x0 x1 x2).2.2 = (x0, x1, x2) := by
  show (mod _ 26, mod _ 26, mod _ 26) = (x0, x1, x2)
  rw [Prod.mk.injEq, Prod.mk.injEq]
  refine ⟨?_, ?_, ?_⟩
  · exact hill_decode_entry (det3x3 M) v (adjugate3x3 M).m00 (adjugate3x3 M).m01
      (adjugate3x3 M).m02 _ _ _ x0 hv h0.1 h0.2
      (by simp only [adjugate3x3, det3x3]; ring)
  · exact hill_decode_entry (det3x3 M) v (adjugate3x3 M).m10 (adjugate3x3 M).m11
      (adjugate3x3 M).m12 _ _ _ x1 hv h1.1 h1.2
      (by simp only [adjugate3x3, det3x3]; ring)
  · exact hill_decode_entry (det3x3 M) v (adjugate3x3 M).m20 (adjugate3x3 M).m21
      (adjugate3x3 M).m22 _ _ _ x2 hv h2.1 h2.2
      (by simp only [adjugate3x3, det3x3]; ring)

theorem upperFilter_id (T : Text) (h : ∀ c ∈ T, 65 ≤ c ∧ c ≤ 90) :
    upperFilter T = T := by
  unfold upperFilter
  rw [List.map_congr_left (fun c hc => show toUpperCode c = id c by
    rw [toUpperCode, if_neg (fun ⟨hx, _⟩ => by have := h c hc; omega)]; rfl)]
  rw [List.map_id]
  rw [List.filter_eq_self.mpr]
  intro c hc
  have := h c hc
  simpa using this

theorem hillPad_id (T : Text) (h : T.length % 3 = 0) : hillPad T = T := by
  rw [hillPad, h]
  simp

theorem hillPad_length (t : Text) : (hillPad t).length % 3 = 0 := by
  rw [hillPad]
  simp only [List.length_append, List.length_replicate]
  omega

theorem hillBlocks_upper (k : Mat3) :
    ∀ (t : Text), t.length % 3 = 0 → ∀ c ∈ hillBlocks k t, 65 ≤ c ∧ c ≤ 90
  | [], _ => by simp [hillBlocks]
  | [a], h => by simp at h
  | [a, b], h => by simp at h
  | a :: b :: c :: rest, h => by
    have h' : rest.length % 3 = 0 := by
      simp only [List.length_cons] at h
      omega
    intro x hx
    rw [show hillBlocks k (a :: b :: c :: rest) =
      vecToText (matrixVectorMult3 k (codeToVec a) (codeToVec b) (codeToVec c))
        ++ hillBlocks k rest from rfl] at hx
    rcases List.mem_append.mp hx with hm | hm
    · have hb0 := mod_nonneg_lt (matrixVectorMult3 k (codeToVec a) (codeToVec b)
        (codeToVec c)).1 26 (by norm_num)
      have hb1 := mod_nonneg_lt (matrixVectorMult3 k (codeToVec a) (codeToVec b)
        (codeToVec c)).2.1 26 (by norm_num)
      have hb2 := mod_nonneg_lt (matrixVectorMult3 k (codeToVec a) (codeToVec b)
        (codeToVec c)).2.2 26 (by norm_num)
      rw [vecToText] at hm
      simp only [List.mem_cons, List.not_mem_nil, or_false] at hm
      rcases hm with rfl | rfl | rfl
      · constructor <;> omega
      · constructor <;> omega
      · constructor <;> omega
    · exact hillBlocks_upper k rest h' x hm

theorem hillBlocks_upper_or_nul (k : Mat3) :
    ∀ (t : Text), ∀ c ∈ hillBlocks k t, (65 ≤ c ∧ c ≤ 90) ∨ c = 0
  | [] => by simp [hillBlocks]
  | [a] => by
    intro x hx
    rw [show hillBlocks k [a] = [0, 0, 0] from rfl] at hx
    simp only [List.mem_cons, List.not_mem_nil, or_false] at hx
    rcases hx with rfl | rfl | rfl <;> exact Or.inr rfl
  | [a, b] => by
    intro x hx
    rw [show hillBlocks k [a, b] = [0, 0, 0] from rfl] at hx
    simp only [List.mem_cons, List.not_mem_nil, or_false] at hx
    rcases hx with rfl | rfl | rfl <;> exact Or.inr rfl
  | a :: b :: c :: rest => by
    intro x hx
    rw [show hillBlocks k (a :: b :: c :: rest) =
      vecToText (matrixVectorMult3 k (codeToVec a) (codeToVec b) (codeToVec c))
        ++ hillBlocks k rest from rfl] at hx
    rcases List.mem_append.mp hx with hm | hm
    · have hb0 := mod_nonneg_lt (matrixVectorMult3 k (codeToVec a) (codeToVec b)
        (codeToVec c)).1 26 (by norm_num)
      have hb1 := mod_nonneg_lt (matrixVectorMult3 k (codeToVec a) (codeToVec b)
        (codeToVec c)).2.1 26 (by norm_num)
      have hb2 := mod_nonneg_lt (matrixVectorMult3 k (codeToVec a) (codeToVec b)
        (codeToVec c)).2.2 26 (by norm_num)
      rw [vecToText] at hm
      simp only [List.mem_cons, List.not_mem_nil, or_false] at hm
      rcases hm with rfl | rfl | rfl
      · exact Or.inl ⟨by omega, by omega⟩
      · exact Or.inl ⟨by omega, by omega⟩
      · exact Or.inl ⟨by omega, by omega⟩
    · exact hillBlocks_upper_or_nul k rest x hm

theorem hillBlocks_cancel (M : Mat3) (v : ℤ)
    (hv : ((det3x3 M % 26) * v) % 26 = 1) :
    ∀ (t : Text), (∀ c ∈ t, 65 ≤ c ∧ c ≤ 90) → t.length % 3 = 0 →
      hillBlocks (scaleAdjMod26 (adjugate3x3 M) v) (hillBlocks M t) = t
  | [], _, _ => rfl
  | [a], _, hlen => by simp at hlen
  | [a, b], _, hlen => by simp at hlen
  | a :: b :: c :: rest, hT, hlen => by
    have ha := hT a (by simp)
    have hb := hT b (by simp)
    have hc := hT c (by simp)
    have hrest : ∀ x ∈ rest, 65 ≤ x ∧ x ≤ 90 := fun x hx => hT x (by simp [hx])
    have hlen' : rest.length % 3 = 0 := by
      simp only [List.length_cons] at hlen
      omega
    have hxa := codeToVec_upper a ha
    have hxb := codeToVec_upper b hb
    have hxc := codeToVec_upper c hc
    have hvec := hill_vec_cancel M v hv (codeToVec a) (codeToVec b) (codeToVec c)
      (by rw [hxa]; constructor <;> omega)
      (by rw [hxb]; constructor <;> omega)
      (by rw [hxc]; constructor <;> omega)
    have hm0 := mod_nonneg_lt (M.m00 * codeToVec a + M.m01 * codeToVec b +
      M.m02 * codeToVec c) 26 (by norm_num)
    have hm1 := mod_nonneg_lt (M.m10 * codeToVec a + M.m11 * codeToVec b +
      M.m12 * codeToVec c) 26 (by norm_num)
    have hm2 := mod_nonneg_lt (M.m20 * codeToVec a + M.m21 * codeToVec b +
      M.m22 * codeToVec c) 26 (by norm_num)
    rw [show hillBlocks M (a :: b :: c :: rest) =
      vecToText (matrixVectorMult3 M (codeToVec a) (codeToVec b) (codeToVec c))
        ++ hillBlocks M rest from rfl]
    rw [show vecToText (matrixVectorMult3 M (codeToVec a) (codeToVec b) (codeToVec c)) =
      [(mod (mod (M.m00 * codeToVec a + M.m01 * codeToVec b + M.m02 * codeToVec c) 26)
          26 + 65).toNat,
       (mod (mod (M.m10 * codeToVec a + M.m11 * codeToVec b + M.m12 * codeToVec c) 26)
          26 + 65).toNat,
       (mod (mod (M.m20 * codeToVec a + M.m21 * codeToVec b + M.m22 * codeToVec c) 26)
          26 + 65).toNat] from rfl]
    rw [mod_idem26 _ hm0.1 hm0.2, mod_idem26 _ hm1.1 hm1.2, mod_idem26 _ hm2.1 hm2.2]
    rw [show ([(mod (M.m00 * codeToVec a + M.m01 * codeToVec b + M.m02 * codeToVec c) 26
          + 65).toNat,
       (mod (M.m10 * codeToVec a + M.m11 * codeToVec b + M.m12 * codeToVec c) 26
          + 65).toNat,
       (mod (M.m20 * codeToVec a + M.m21 * codeToVec b + M.m22 * codeToVec c) 26
          + 65).toNat] : Text) ++ hillBlocks M rest =
      (mod (M.m00 * codeToVec a + M.m01 * codeToVec b + M.m02 * codeToVec c) 26
          + 65).toNat ::
      (mod (M.m10 * codeToVec a + M.m11 * codeToVec b + M.m12 * codeToVec c) 26
          + 65).toNat ::
      (mod (M.m20 * codeToVec a + M.m21 * codeToVec b + M.m22 * codeToVec c) 26
          + 65).toNat :: hillBlocks M rest from rfl]
    rw [show hillBlocks (scaleAdjMod26 (adjugate3x3 M) v)
      ((mod (M.m00 * codeToVec a + M.m01 * codeToVec b + M.m02 * codeToVec c) 26
          + 65).toNat ::
       (mod (M.m10 * codeToVec a + M.m11 * codeToVec b + M.m12 * codeToVec c) 26
          + 65).toNat ::
       (mod (M.m20 * codeToVec a + M.m21 * codeToVec b + M.m22 * codeToVec c) 26
          + 65).toNat :: hillBlocks M rest) =
      vecToText (matrixVectorMult3 (scaleAdjMod26 (adjugate3x3 M) v)
        (codeToVec ((mod (M.m00 * codeToVec a + M.m01 * codeToVec b +
          M.m02 * codeToVec c) 26 + 65).toNat))
        (codeToVec ((mod (M.m10 * codeToVec a + M.m11 * codeToVec b +
          M.m12 * codeToVec c) 26 + 65).toNat))
        (codeToVec ((mod (M.m20 * codeToVec a + M.m21 * codeToVec b +
          M.m22 * codeToVec c) 26 + 65).toNat)))
        ++ hillBlocks (scaleAdjMod26 (adjugate3x3 M) v) (hillBlocks M rest) from rfl]
    rw [codeToVec_encoded _ hm0.1 hm0.2, codeToVec_encoded _ hm1.1 hm1.2,
      codeToVec_encoded _ hm2.1 hm2.2]
    rw [show (mod (M.m00 * codeToVec a + M.m01 * codeToVec b + M.m02 * codeToVec c) 26 :
        ℤ) = (matrixVectorMult3 M (codeToVec a) (codeToVec b) (codeToVec c)).1 from rfl,
      show (mod (M.m10 * codeToVec a + M.m11 * codeToVec b + M.m12 * codeToVec c) 26 :
        ℤ) = (matrixVectorMult3 M (codeToVec a) (codeToVec b) (codeToVec c)).2.1 from rfl,
      show (mod (M.m20 * codeToVec a + M.m21 * codeToVec b + M.m22 * codeToVec c) 26 :
        ℤ) = (matrixVectorMult3 M (codeToVec a) (codeToVec b) (codeToVec c)).2.2 from rfl]
    rw [hvec]
    rw [show vecToText (codeToVec a, codeToVec b, codeToVec c) =
      [(mod (codeToVec a) 26 + 65).toNat, (mod (codeToVec b) 26 + 65).toNat,
       (mod (codeToVec c) 26 + 65).toNat] from rfl]
    rw [hxa, hxb, hxc]
    rw [mod_idem26 _ (by omega) (by omega), mod_idem26 _ (by omega) (by omega),
      mod_idem26 _ (by omega) (by omega)]
    rw [hillBlocks_cancel M v hv rest hrest hlen']
    rw [show (((a : ℤ) - 65 + 65).toNat) = a by omega,
      show (((b : ℤ) - 65 + 65).toNat) = b by omega,
      show (((c : ℤ) - 65 + 65).toNat) = c by omega]
    rfl

/-- C3 is false as stated for arbitrary text: the cipher uppercases its
input, so a lowercase `"abc"` (length 3, identity key with determinant 1)
round-trips to `"ABC"`, not to itself. -/
theorem C3_counterexample :
    ((str "abc").length % 3 = 0 ∧
      Int.gcd (mod (det3x3 ⟨1, 0, 0, 0, 1, 0, 0, 0, 1⟩) 26) 26 = 1 ∧
      hillDecrypt (hillEncrypt (str "abc") ⟨1, 0, 0, 0, 1, 0, 0, 0, 1⟩)
        ⟨1, 0, 0, 0, 1, 0, 0, 0, 1⟩ = .ok (str "ABC") ∧
      str "ABC" ≠ str "abc") ∧
    ((str "AB!").length % 3 = 0 ∧
      hillDecrypt (hillEncrypt (str "AB!") ⟨1, 0, 0, 0, 1, 0, 0, 0, 1⟩)
        ⟨1, 0, 0, 0, 1, 0, 0, 0, 1⟩ = .ok (str "ABX") ∧
      str "ABX" ≠ str "AB!") := by
  refine ⟨⟨by decide, by decide, by rfl, by decide⟩,
    by decide, by rfl, by decide⟩

/-- C3 amended: for every 3×3 integer key whose determinant mod 26 is
coprime to 26, the Hill round trip is the identity on texts of uppercase
letters `A`-`Z` whose length is a multiple of 3 (the canonical form the
cipher itself produces; general text is only recovered up to uppercasing
and stripping of non-letters). -/
theorem C3_amended_hill_roundtrip (T : Text) (M : Mat3)
    (hdet : Int.gcd (mod (det3x3 M) 26) 26 = 1)
    (hT : ∀ c ∈ T, 65 ≤ c ∧ c ≤ 90) (hlen : T.length % 3 = 0) :
    hillDecrypt (hillEncrypt T M) M = .ok T := by
  have hnn := mod_nonneg_lt (det3x3 M) 26 (by norm_num)
  obtain ⟨v, hv, hv0, hvinv⟩ := modInverse_26_spec (mod (det3x3 M) 26) hdet
  have hvinv' : ((det3x3 M % 26) * v) % 26 = 1 := by
    rw [Int.emod_eq_of_lt hnn.1 hnn.2, mod26] at hvinv
    exact hvinv
  have hcheckeq : gcd (mod (det3x3 M) 26) 26 = 1 := by
    rw [gcd_of_nonneg _ _ hnn.1 (by norm_num), hdet]
    rfl
  have hinv : inverseMatrix3x3Mod26 M = .ok (scaleAdjMod26 (adjugate3x3 M) v) := by
    show (if gcd (mod (det3x3 M) 26) 26 ≠ 1 then
        Except.error "Hill: det K nest pas premier avec 26. Matrice non inversible."
      else
        Except.ok (scaleAdjMod26 (adjugate3x3 M)
          ((modInverse (mod (det3x3 M) 26) 26).getD 0))) = _
    rw [if_neg (fun hne => hne hcheckeq), hv]
    rfl
  have henc : hillEncrypt T M = hillBlocks M T := by
    rw [hillEncrypt, upperFilter_id T hT, hillPad_id T hlen]
  rw [hillDecrypt, hinv, henc]
  show Except.ok (hillBlocks (scaleAdjMod26 (adjugate3x3 M) v)
    (upperFilter (hillBlocks M T))) = Except.ok T
  rw [upperFilter_id _ (hillBlocks_upper M T hlen),
    hillBlocks_cancel M v hvinv' T hT hlen]

/-- Witness for the amended C3 at the repository default Hill key
`[[6,24,1],[13,16,10],[20,17,15]]` on the text `"ACT"`. -/
theorem C3_amended_witness :
    Int.gcd (mod (det3x3 defaultHillKey) 26) 26 = 1 ∧
    (∀ c ∈ str "ACT", 65 ≤ c ∧ c ≤ 90) ∧
    (str "ACT").length % 3 = 0 ∧
    hillDecrypt (hillEncrypt (str "ACT") defaultHillKey) defaultHillKey =
      .ok (str "ACT") :=
  ⟨by decide, by decide, by decide,
    C3_amended_hill_roundtrip (str "ACT") defaultHillKey
      (by decide) (by decide) (by decide)⟩

/-- C5: `hillDecrypt` with a key whose determinant mod 26 shares a factor
with 26 fails with the InvalidKey error for every text: the inverse-matrix
check runs before the block loop, so no partially decoded output can ever
be produced. -/
theorem C5_hill_invalid_key (T : Text) (M : Mat3)
    (h : Int.gcd (mod (det3x3 M) 26) 26 ≠ 1) :
    hillDecrypt T M =
      .error "Hill: det K nest pas premier avec 26. Matrice non inversible." := by
  have hnn := mod_nonneg_lt (det3x3 M) 26 (by norm_num)
  have hcheck : gcd (mod (det3x3 M) 26) 26 ≠ 1 := by
    rw [gcd_of_nonneg _ _ hnn.1 (by norm_num)]
    intro hh
    apply h
    exact_mod_cast hh
  have hinv : inverseMatrix3x3Mod26 M =
      .error "Hill: det K nest pas premier avec 26. Matrice non inversible." := by
    show (if gcd (mod (det3x3 M) 26) 26 ≠ 1 then
        Except.error "Hill: det K nest pas premier avec 26. Matrice non inversible."
      else
        Except.ok (scaleAdjMod26 (adjugate3x3 M)
          ((modInverse (mod (det3x3 M) 26) 26).getD 0))) = _
    rw [if_pos hcheck]
  rw [hillDecrypt, hinv]

/-- Witness for C5: the doubled identity matrix has determinant 8, and
`gcd(8, 26) = 2`, so decryption of `"ABCDEF"` fails. -/
theorem C5_witness :
    Int.gcd (mod (det3x3 ⟨2, 0, 0, 0, 2, 0, 0, 0, 2⟩) 26) 26 ≠ 1 ∧
    hillDecrypt (str "ABCDEF") ⟨2, 0, 0, 0, 2, 0, 0, 0, 2⟩ =
      .error "Hill: det K nest pas premier avec 26. Matrice non inversible." :=
  ⟨by decide, C5_hill_invalid_key (str "ABCDEF") ⟨2, 0, 0, 0, 2, 0, 0, 0, 2⟩ (by decide)⟩

/-! ### Playfair cipher: grid construction -/

theorem foldl_insertNew_nodup : ∀ (xs acc : Text), acc.Nodup →
    (xs.foldl insertNew acc).Nodup
  | [], _, h => h
  | c :: xs, acc, h => by
    show (xs.foldl insertNew (insertNew acc c)).Nodup
    apply foldl_insertNew_nodup
    rw [insertNew]
    by_cases hc : c ∈ acc
    · rwa [if_pos hc]
    · rw [if_neg hc, List.nodup_append]
      refine ⟨h, List.nodup_singleton c, ?_⟩
      intro x hx hx2
      simp only [List.mem_singleton] at hx2
      subst hx2
      exact hc hx

theorem mem_foldl_insertNew : ∀ (xs acc : Text) (c : ℕ),
    c ∈ xs.foldl insertNew acc ↔ c ∈ acc ∨ c ∈ xs
  | [], acc, c => by simp
  | d :: xs, acc, c => by
    show c ∈ xs.foldl insertNew (insertNew acc d) ↔ _
    rw [mem_foldl_insertNew xs (insertNew acc d) c, insertNew]
    by_cases hd : d ∈ acc
    · rw [if_pos hd]
      simp only [List.mem_cons]
      constructor
      · rintro (h | h)
        · exact Or.inl h
        · exact Or.inr (Or.inr h)
      · rintro (h | h | h)
        · exact Or.inl h
        · subst h; exact Or.inl hd
        · exact Or.inr h
    · rw [if_neg hd]
      simp only [List.mem_append, List.mem_singleton, List.mem_cons]
      tauto

theorem buildPlayfairMatrix_nodup (key : Text) : (buildPlayfairMatrix key).Nodup := by
  unfold buildPlayfairMatrix
  exact foldl_insertNew_nodup _ _ (foldl_insertNew_nodup _ _ List.nodup_nil)

theorem mem_alphabet25 (c : ℕ) : c ∈ alphabet25 ↔ (65 ≤ c ∧ c ≤ 90 ∧ c ≠ 74) := by
  constructor
  · intro h
    simp only [alphabet25, List.mem_cons, List.not_mem_nil, or_false] at h
    rcases h with rfl | rfl | rfl | rfl | rfl | rfl | rfl | rfl | rfl | rfl | rfl |
      rfl | rfl | rfl | rfl | rfl | rfl | rfl | rfl | rfl | rfl | rfl | rfl | rfl |
      rfl <;> exact ⟨by norm_num, by norm_num, by norm_num⟩
  · rintro ⟨h1, h2, h3⟩
    interval_cases c <;> revert h3 <;> decide

theorem keyUpper_mem (key : Text) (c : ℕ)
    (h : c ∈ ((key.map toUpperCode).map jToI).filter
      (fun x => decide (65 ≤ x ∧ x ≤ 90))) :
    65 ≤ c ∧ c ≤ 90 ∧ c ≠ 74 := by
  rw [List.mem_filter] at h
  obtain ⟨hmem, hprop⟩ := h
  have hb : 65 ≤ c ∧ c ≤ 90 := by simpa using hprop
  refine ⟨hb.1, hb.2, ?_⟩
  rw [List.mem_map] at hmem
  obtain ⟨x, _, hx⟩ := hmem
  by_cases hx74 : x = 74
  · rw [jToI, if_pos hx74] at hx
    omega
  · rw [jToI, if_neg hx74] at hx
    omega

theorem mem_matrix_iff (key : Text) (c : ℕ) :
    c ∈ buildPlayfairMatrix key ↔ (65 ≤ c ∧ c ≤ 90 ∧ c ≠ 74) := by
  have hmem : c ∈ buildPlayfairMatrix key ↔
      (c ∈ ((key.map toUpperCode).map jToI).filter
        (fun x => decide (65 ≤ x ∧ x ≤ 90)) ∨ c ∈ alphabet25) := by
    unfold buildPlayfairMatrix
    rw [mem_foldl_insertNew, mem_foldl_insertNew]
    simp only [List.not_mem_nil, false_or]
  rw [hmem]
  constructor
  · rintro (h | h)
    · exact keyUpper_mem key c h
    · exact (mem_alphabet25 c).mp h
  · intro h
    exact Or.inr ((mem_alphabet25 c).mpr h)

theorem buildPlayfairMatrix_length (key : Text) :
    (buildPlayfairMatrix key).length = 25 := by
  have h1 : (buildPlayfairMatrix key).toFinset = alphabet25.toFinset := by
    apply Finset.ext
    intro c
    rw [List.mem_toFinset, List.mem_toFinset, mem_matrix_iff, mem_alphabet25]
  have h2 := List.toFinset_card_of_nodup (buildPlayfairMatrix_nodup key)
  have h3 : alphabet25.Nodup := by decide
  have h4 := List.toFinset_card_of_nodup h3
  rw [h1, h4] at h2
  have h5 : alphabet25.length = 25 := rfl
  omega

/-! ### Playfair cipher: position lookup -/

theorem scanIdx_get : ∀ (m : Text), m.Nodup → ∀ (i : ℕ) (h : i < m.length),
    scanIdx m (m.get ⟨i, h⟩) = some i
  | [], _, i, h => by simp at h
  | d :: rest, _, 0, h => by simp [scanIdx]
  | d :: rest, hnd, i + 1, h => by
    have hd : d ∉ rest := (List.nodup_cons.mp hnd).1
    have hrest : rest.Nodup := (List.nodup_cons.mp hnd).2
    have hi : i < rest.length := by simpa using h
    have hget : (d :: rest).get ⟨i + 1, h⟩ = rest.get ⟨i, hi⟩ := rfl
    rw [hget]
    show (if d = rest.get ⟨i, hi⟩ then some 0
      else (scanIdx rest (rest.get ⟨i, hi⟩)).map (· + 1)) = some (i + 1)
    rw [if_neg (fun hEq => hd (by rw [hEq]; exact List.get_mem rest i hi)),
      scanIdx_get rest hrest i hi]
    rfl

theorem gridGet_of_get (L : Text) (i : ℕ) (hi : i < L.length) :
    gridGet L ((i : ℤ) / 5) ((i : ℤ) % 5) = L.get ⟨i, hi⟩ := by
  have h5 : (5 * ((i : ℤ) / 5) + (i : ℤ) % 5) = (i : ℤ) := by omega
  rw [gridGet, h5, show ((i : ℤ)).toNat = i from rfl,
    List.getD_eq_getElem L 88 hi]
  rfl

theorem findPosition_grid (L : Text) (hnd : L.Nodup) (hlen : L.length = 25)
    (r c : ℤ) (hr : 0 ≤ r ∧ r < 5) (hc : 0 ≤ c ∧ c < 5) :
    findPosition L (gridGet L r c) = some (r, c) := by
  have hidx : (5 * r + c).toNat < L.length := by omega
  have hcast : (((5 * r + c).toNat : ℕ) : ℤ) = 5 * r + c :=
    Int.toNat_of_nonneg (by omega)
  have hg : gridGet L r c = L.get ⟨(5 * r + c).toNat, hidx⟩ := by
    rw [gridGet, List.getD_eq_getElem L 88 hidx]
    rfl
  rw [hg, findPosition, scanIdx_get L hnd _ hidx]
  show (if (5 * r + c).toNat < 25 then
      some ((((5 * r + c).toNat : ℕ) : ℤ) / 5, (((5 * r + c).toNat : ℕ) : ℤ) % 5)
    else none) = some (r, c)
  rw [if_pos (show (5 * r + c).toNat < 25 by omega)]
  congr 1
  rw [Prod.mk.injEq]
  constructor <;> omega

theorem gridGet_mem (L : Text) (hlen : L.length = 25) (r c : ℤ)
    (hr : 0 ≤ r ∧ r < 5) (hc : 0 ≤ c ∧ c < 5) : gridGet L r c ∈ L := by
  have hidx : (5 * r + c).toNat < L.length := by omega
  rw [gridGet, List.getD_eq_getElem L 88 hidx]
  exact List.getElem_mem hidx

/-! ### Playfair cipher: digram round trip -/

theorem encryptDigram_eq (m : Text) (a b : ℕ) (r1 c1 r2 c2 : ℤ)
    (hfa : findPosition m a = some (r1, c1))
    (hfb : findPosition m b = some (r2, c2)) :
    encryptDigram m (a, b) =
      if r1 = r2 then
        some [gridGet m r1 (jsrem (c1 + 1) 5), gridGet m r2 (jsrem (c2 + 1) 5)]
      else if c1 = c2 then
        some [gridGet m (jsrem (r1 + 1) 5) c1, gridGet m (jsrem (r2 + 1) 5) c2]
      else
        some [gridGet m r1 c2, gridGet m r2 c1] := by
  simp only [encryptDigram]
  rw [hfa, hfb]

theorem decryptPair_eq (m : Text) (a b : ℕ) (r1 c1 r2 c2 : ℤ)
    (hfa : findPosition m a = some (r1, c1))
    (hfb : findPosition m b = some (r2, c2)) :
    decryptPair m a b =
      if r1 = r2 then
        some [gridGet m r1 (mod (c1 - 1) 5), gridGet m r2 (mod (c2 - 1) 5)]
      else if c1 = c2 then
        some [gridGet m (mod (r1 - 1) 5) c1, gridGet m (mod (r2 - 1) 5) c2]
      else
        some [gridGet m r1 c2, gridGet m r2 c1] := by
  simp only [decryptPair]
  rw [hfa, hfb]

theorem digram_cancel (L : Text) (hnd : L.Nodup) (hlen : L.length = 25)
    (a b : ℕ) (ha : a ∈ L) (hb : b ∈ L) :
    ∃ u v, encryptDigram L (a, b) = some [u, v] ∧ u ∈ L ∧ v ∈ L ∧
      decryptPair L u v = some [a, b] := by
  obtain ⟨⟨i, hi⟩, hgi⟩ := List.mem_iff_get.mp ha
  obtain ⟨⟨j, hj⟩, hgj⟩ := List.mem_iff_get.mp hb
  have hga : gridGet L ((i : ℤ) / 5) ((i : ℤ) % 5) = a := by
    rw [gridGet_of_get L i hi, hgi]
  have hgb : gridGet L ((j : ℤ) / 5) ((j : ℤ) % 5) = b := by
    rw [gridGet_of_get L j hj, hgj]
  have hi25 : i < 25 := by omega
  have hj25 : j < 25 := by omega
  have hr1 : 0 ≤ (i : ℤ) / 5 ∧ (i : ℤ) / 5 < 5 := by constructor <;> omega
  have hc1 : 0 ≤ (i : ℤ) % 5 ∧ (i : ℤ) % 5 < 5 := by constructor <;> omega
  have hr2 : 0 ≤ (j : ℤ) / 5 ∧ (j : ℤ) / 5 < 5 := by constructor <;> omega
  have hc2 : 0 ≤ (j : ℤ) % 5 ∧ (j : ℤ) % 5 < 5 := by constructor <;> omega
  have hfa : findPosition L a = some ((i : ℤ) / 5, (i : ℤ) % 5) := by
    rw [← hga]
    exact findPosition_grid L hnd hlen _ _ hr1 hc1
  have hfb : findPosition L b = some ((j : ℤ) / 5, (j : ℤ) % 5) := by
    rw [← hgb]
    exact findPosition_grid L hnd hlen _ _ hr2 hc2
  by_cases hrow : (i : ℤ) / 5 = (j : ℤ) / 5
  · -- same row: encryption shifts one column right, decryption one left
    have hju : jsrem ((i : ℤ) % 5 + 1) 5 = ((i : ℤ) % 5 + 1) % 5 :=
      Int.tmod_eq_emod (by omega) (by omega)
    have hjv : jsrem ((j : ℤ) % 5 + 1) 5 = ((j : ℤ) % 5 + 1) % 5 :=
      Int.tmod_eq_emod (by omega) (by omega)
    have hcu : 0 ≤ ((i : ℤ) % 5 + 1) % 5 ∧ ((i : ℤ) % 5 + 1) % 5 < 5 := by
      constructor <;> omega
    have hcv : 0 ≤ ((j : ℤ) % 5 + 1) % 5 ∧ ((j : ℤ) % 5 + 1) % 5 < 5 := by
      constructor <;> omega
    refine ⟨gridGet L ((i : ℤ) / 5) (((i : ℤ) % 5 + 1) % 5),
      gridGet L ((j : ℤ) / 5) (((j : ℤ) % 5 + 1) % 5), ?_, ?_, ?_, ?_⟩
    · rw [encryptDigram_eq L a b _ _ _ _ hfa hfb, if_pos hrow, hju, hjv]
    · exact gridGet_mem L hlen _ _ hr1 hcu
    · exact gridGet_mem L hlen _ _ hr2 hcv
    · have hfu := findPosition_grid L hnd hlen _ _ hr1 hcu
      have hfv := findPosition_grid L hnd hlen _ _ hr2 hcv
      rw [decryptPair_eq L _ _ _ _ _ _ hfu hfv, if_pos hrow, mod5, mod5,
        show (((i : ℤ) % 5 + 1) % 5 - 1) % 5 = (i : ℤ) % 5 by omega,
        show (((j : ℤ) % 5 + 1) % 5 - 1) % 5 = (j : ℤ) % 5 by omega,
        hga, hgb]
  · by_cases hcol : (i : ℤ) % 5 = (j : ℤ) % 5
    · -- same column: encryption shifts one row down, decryption one up
      have hju : jsrem ((i : ℤ) / 5 + 1) 5 = ((i : ℤ) / 5 + 1) % 5 :=
        Int.tmod_eq_emod (by omega) (by omega)
      have hjv : jsrem ((j : ℤ) / 5 + 1) 5 = ((j : ℤ) / 5 + 1) % 5 :=
        Int.tmod_eq_emod (by omega) (by omega)
      have hru : 0 ≤ ((i : ℤ) / 5 + 1) % 5 ∧ ((i : ℤ) / 5 + 1) % 5 < 5 := by
        constructor <;> omega
      have hrv : 0 ≤ ((j : ℤ) / 5 + 1) % 5 ∧ ((j : ℤ) / 5 + 1) % 5 < 5 := by
        constructor <;> omega
      refine ⟨gridGet L (((i : ℤ) / 5 + 1) % 5) ((i : ℤ) % 5),
        gridGet L (((j : ℤ) / 5 + 1) % 5) ((j : ℤ) % 5), ?_, ?_, ?_, ?_⟩
      · rw [encryptDigram_eq L a b _ _ _ _ hfa hfb, if_neg hrow, if_pos hcol,
          hju, hjv]
      · exact gridGet_mem L hlen _ _ hru hc1
      · exact gridGet_mem L hlen _ _ hrv hc2
      · have hfu := findPosition_grid L hnd hlen _ _ hru hc1
        have hfv := findPosition_grid L hnd hlen _ _ hrv hc2
        have hrowne : ((i : ℤ) / 5 + 1) % 5 ≠ ((j : ℤ) / 5 + 1) % 5 := by omega
        rw [decryptPair_eq L _ _ _ _ _ _ hfu hfv, if_neg hrowne, if_pos hcol,
          mod5, mod5,
          show (((i : ℤ) / 5 + 1) % 5 - 1) % 5 = (i : ℤ) / 5 by omega,
          show (((j : ℤ) / 5 + 1) % 5 - 1) % 5 = (j : ℤ) / 5 by omega,
          hga, hgb]
    · -- rectangle: swap columns, self-inverse
      refine ⟨gridGet L ((i : ℤ) / 5) ((j : ℤ) % 5),
        gridGet L ((j : ℤ) / 5) ((i : ℤ) % 5), ?_, ?_, ?_, ?_⟩
      · rw [encryptDigram_eq L a b _ _ _ _ hfa hfb, if_neg hrow, if_neg hcol]
      · exact gridGet_mem L hlen _ _ hr1 hc2
      · exact gridGet_mem L hlen _ _ hr2 hc1
      · have hfu := findPosition_grid L hnd hlen _ _ hr1 hc2
        have hfv := findPosition_grid L hnd hlen _ _ hr2 hc1
        rw [decryptPair_eq L _ _ _ _ _ _ hfu hfv, if_neg hrow,
          if_neg (fun h => hcol h.symm), hga, hgb]

/-! ### Playfair cipher: text-level round trip -/

theorem playfair_digrams_roundtrip (L : Text) (hnd : L.Nodup)
    (hlen : L.length = 25) :
    ∀ (ds : List (ℕ × ℕ)), (∀ d ∈ ds, d.1 ∈ L ∧ d.2 ∈ L) →
      ∃ out, encryptDigrams L ds = some out ∧ (∀ c ∈ out, c ∈ L) ∧
        decryptPairs L out = some (ds.flatMap fun d => [d.1, d.2])
  | [], _ => ⟨[], rfl, by simp, rfl⟩
  | (x, y) :: ds, h => by
    obtain ⟨u, v, henc, hu, hv, hdec⟩ :=
      digram_cancel L hnd hlen x y (h (x, y) (by simp)).1 (h (x, y) (by simp)).2
    obtain ⟨out, hout, houtmem, hdecs⟩ :=
      playfair_digrams_roundtrip L hnd hlen ds (fun e he => h e (by simp [he]))
    refine ⟨u :: v :: out, ?_, ?_, ?_⟩
    · show (match encryptDigram L (x, y), encryptDigrams L ds with
        | some pair, some r => some (pair ++ r)
        | _, _ => none) = some (u :: v :: out)
      rw [henc, hout]
      rfl
    · intro c hc
      rcases List.mem_cons.mp hc with rfl | hc
      · exact hu
      · rcases List.mem_cons.mp hc with rfl | hc
        · exact hv
        · exact houtmem c hc
    · show (match decryptPair L u v, decryptPairs L out with
        | some pair, some r => some (pair ++ r)
        | _, _ => none) = _
      rw [hdec, hdecs]
      rfl

theorem prepareDigrams_exact : ∀ (T : Text), List.Chain' (· ≠ ·) T →
    T.length % 2 = 0 →
    ((prepareDigrams T).flatMap fun d => [d.1, d.2]) = T ∧
      ∀ d ∈ prepareDigrams T, d.1 ∈ T ∧ d.2 ∈ T
  | [], _, _ => ⟨rfl, by simp [prepareDigrams]⟩
  | [a], _, hlen => by simp at hlen
  | a :: b :: rest, hch, hlen => by
    have hab : a ≠ b := (List.chain'_cons.mp hch).1
    have hch' : List.Chain' (· ≠ ·) rest := ((List.chain'_cons.mp hch).2).tail
    have hlen' : rest.length % 2 = 0 := by
      simp only [List.length_cons] at hlen ⊢
      omega
    obtain ⟨hflat, hmem⟩ := prepareDigrams_exact rest hch' hlen'
    have hpre : prepareDigrams (a :: b :: rest) = (a, b) :: prepareDigrams rest := by
      show (if a = b then (a, 88) :: prepareDigrams (b :: rest)
        else (a, b) :: prepareDigrams rest) = _
      rw [if_neg hab]
    rw [hpre]
    constructor
    · rw [List.flatMap_cons, hflat]
      rfl
    · intro d hd
      rcases List.mem_cons.mp hd with rfl | hd'
      · exact ⟨by simp, by simp⟩
      · obtain ⟨h1, h2⟩ := hmem d hd'
        exact ⟨by simp [h1], by simp [h2]⟩

theorem playfairPrep_id (T : Text) (hT : ∀ c ∈ T, 65 ≤ c ∧ c ≤ 90 ∧ c ≠ 74) :
    ((T.map toUpperCode).map jToI).filter (fun c => decide (65 ≤ c ∧ c ≤ 90)) = T := by
  rw [List.map_congr_left (fun c hc => show toUpperCode c = id c from by
    rw [toUpperCode, if_neg (fun ⟨hx, _⟩ => by have := hT c hc; omega)]; rfl),
    List.map_id]
  rw [List.map_congr_left (fun c hc => show jToI c = id c from by
    rw [jToI, if_neg (hT c hc).2.2]; rfl), List.map_id]
  rw [List.filter_eq_self.mpr (fun c hc => by
    have := hT c hc
    simp only [decide_eq_true_eq]
    exact ⟨this.1, this.2.1⟩)]

/-- C4 is false as stated for arbitrary alphabetic text: the cipher
uppercases, so the lowercase `"ab"` (alphabetic, no adjacent repeats, even
length) comes back as `"AB"`, not `"ab"`.  (A text containing `J` likewise
comes back with `I` in its place.) -/
theorem C4_counterexample :
    ((∀ c ∈ str "ab", isAlphaCode c) ∧
      List.Chain' (· ≠ ·) (str "ab") ∧
      (str "ab").length % 2 = 0 ∧
      (playfairEncrypt (str "ab") (str "key")).bind
        (fun c => playfairDecrypt c (str "key")) = some (str "AB") ∧
      str "AB" ≠ str "ab") ∧
    ((∀ c ∈ str "AJ", isAlphaCode c) ∧
      List.Chain' (· ≠ ·) (str "AJ") ∧
      (str "AJ").length % 2 = 0 ∧
      (playfairEncrypt (str "AJ") (str "key")).bind
        (fun c => playfairDecrypt c (str "key")) = some (str "AI") ∧
      str "AI" ≠ str "AJ") := by
  constructor
  · refine ⟨by decide, ?_, by decide, by rfl, by decide⟩
    rw [show str "ab" = [97, 98] from rfl]
    exact List.chain'_cons.mpr ⟨by norm_num, List.chain'_singleton 98⟩
  · refine ⟨by decide, ?_, by decide, by rfl, by decide⟩
    rw [show str "AJ" = [65, 74] from rfl]
    exact List.chain'_cons.mpr ⟨by norm_num, List.chain'_singleton 74⟩

/-- C4 amended: for every key and every text of uppercase letters excluding
`J`, with no two adjacent equal letters and even length, Playfair decryption
inverts Playfair encryption exactly.  (On general text the round trip
returns the uppercased, `J`-merged form, which is what "the I/J merge
applied consistently" leaves of the input.) -/
theorem C4_amended_playfair_roundtrip (T K : Text)
    (hT : ∀ c ∈ T, 65 ≤ c ∧ c ≤ 90 ∧ c ≠ 74)
    (hch : List.Chain' (· ≠ ·) T) (hlen : T.length % 2 = 0) :
    (playfairEncrypt T K).bind (fun c => playfairDecrypt c K) = some T := by
  have hnd := buildPlayfairMatrix_nodup K
  have hlen25 := buildPlayfairMatrix_length K
  obtain ⟨hflat, hmem⟩ := prepareDigrams_exact T hch hlen
  have hds : ∀ d ∈ prepareDigrams T,
      d.1 ∈ buildPlayfairMatrix K ∧ d.2 ∈ buildPlayfairMatrix K := by
    intro d hd
    obtain ⟨h1, h2⟩ := hmem d hd
    exact ⟨(mem_matrix_iff K d.1).mpr (hT d.1 h1),
      (mem_matrix_iff K d.2).mpr (hT d.2 h2)⟩
  obtain ⟨out, hout, houtmem, hdec⟩ := playfair_digrams_roundtrip
    (buildPlayfairMatrix K) hnd hlen25 (prepareDigrams T) hds
  have hprep : preparePlayfairText T = prepareDigrams T := by
    rw [preparePlayfairText, playfairPrep_id T hT]
  have henc : playfairEncrypt T K = some out := by
    rw [playfairEncrypt, hprep, hout]
  rw [henc]
  show playfairDecrypt out K = some T
  have houtUpper : ∀ c ∈ out, 65 ≤ c ∧ c ≤ 90 ∧ c ≠ 74 := fun c hc =>
    (mem_matrix_iff K c).mp (houtmem c hc)
  rw [playfairDecrypt]
  rw [List.map_congr_left (fun c hc => show toUpperCode c = id c from by
    rw [toUpperCode, if_neg (fun ⟨hx, _⟩ => by have := houtUpper c hc; omega)]; rfl),
    List.map_id]
  rw [List.filter_eq_self.mpr (fun c hc => by
    have := houtUpper c hc
    simp only [decide_eq_true_eq]
    exact ⟨this.1, this.2.1⟩)]
  rw [hdec, hflat]

/-- Witness for the amended C4 on the text `"AB"` with key `"key"`. -/
theorem C4_amended_witness :
    (∀ c ∈ str "AB", 65 ≤ c ∧ c ≤ 90 ∧ c ≠ 74) ∧
    List.Chain' (· ≠ ·) (str "AB") ∧
    (str "AB").length % 2 = 0 ∧
    (playfairEncrypt (str "AB") (str "key")).bind
      (fun c => playfairDecrypt c (str "key")) = some (str "AB") := by
  have hch : List.Chain' (· ≠ ·) (str "AB") := by
    rw [show str "AB" = [65, 66] from rfl]
    exact List.chain'_cons.mpr ⟨by norm_num, List.chain'_singleton 66⟩
  exact ⟨by decide, hch, by decide,
    C4_amended_playfair_roundtrip (str "AB") (str "key") (by decide) hch (by decide)⟩

/-- C8 is contradicted by the code: `playfairDecrypt` crashes (destructures
the `null` from `findPosition`) on any text containing a letter absent from
the 5×5 grid, such as `J`, and on any odd-length alphabetic text, while
`playfairEncrypt` succeeds on the same inputs. -/
theorem C8_playfair_decrypt_crash :
    playfairDecrypt (str "AJ") (str "SECRET") = none ∧
    playfairDecrypt (str "ABC") (str "SECRET") = none ∧
    (playfairEncrypt (str "AJ") (str "SECRET")).isSome = true ∧
    (playfairEncrypt (str "ABC") (str "SECRET")).isSome = true := by
  refine ⟨by rfl, by rfl, by rfl, by rfl⟩

/-! ### Output alphabets (claim C1) -/

theorem findPosition_bounds (m : Text) (ch : ℕ) (r c : ℤ)
    (h : findPosition m ch = some (r, c)) :
    0 ≤ r ∧ r < 5 ∧ 0 ≤ c ∧ c < 5 := by
  unfold findPosition at h
  cases hs : scanIdx m ch with
  | none => rw [hs] at h; cases h
  | some i =>
    rw [hs] at h
    have h' : (if i < 25 then some (((i : ℕ) : ℤ) / 5, ((i : ℕ) : ℤ) % 5)
        else none) = some (r, c) := h
    by_cases hi : i < 25
    · rw [if_pos hi] at h'
      cases h'
      refine ⟨by omega, by omega, by omega, by omega⟩
    · rw [if_neg hi] at h'
      cases h'

theorem encryptDigram_upper (L : Text) (hlen : L.length = 25)
    (hup : ∀ c ∈ L, 65 ≤ c ∧ c ≤ 90) (a b : ℕ) (out : Text)
    (h : encryptDigram L (a, b) = some out) :
    ∀ c ∈ out, 65 ≤ c ∧ c ≤ 90 := by
  have hmem : ∀ r c : ℤ, 0 ≤ r ∧ r < 5 → 0 ≤ c ∧ c < 5 →
      65 ≤ gridGet L r c ∧ gridGet L r c ≤ 90 := fun r c hr hc =>
    hup _ (gridGet_mem L hlen r c hr hc)
  cases hfa : findPosition L a with
  | none =>
    simp only [encryptDigram, hfa] at h
    cases h
  | some p =>
    obtain ⟨r1, c1⟩ := p
    cases hfb : findPosition L b with
    | none =>
      simp only [encryptDigram, hfa, hfb] at h
      cases h
    | some q =>
      obtain ⟨r2, c2⟩ := q
      obtain ⟨hr10, hr15, hc10, hc15⟩ := findPosition_bounds _ _ _ _ hfa
      obtain ⟨hr20, hr25, hc20, hc25⟩ := findPosition_bounds _ _ _ _ hfb
      rw [encryptDigram_eq _ a b r1 c1 r2 c2 hfa hfb] at h
      have hju : jsrem (c1 + 1) 5 = (c1 + 1) % 5 :=
        Int.tmod_eq_emod (by omega) (by omega)
      have hjv : jsrem (c2 + 1) 5 = (c2 + 1) % 5 :=
        Int.tmod_eq_emod (by omega) (by omega)
      have hjr : jsrem (r1 + 1) 5 = (r1 + 1) % 5 :=
        Int.tmod_eq_emod (by omega) (by omega)
      have hjs : jsrem (r2 + 1) 5 = (r2 + 1) % 5 :=
        Int.tmod_eq_emod (by omega) (by omega)
      by_cases hrow : r1 = r2
      · rw [if_pos hrow, hju, hjv] at h
        cases h
        intro c hc
        rcases List.mem_cons.mp hc with rfl | hc
        · exact hmem _ _ ⟨hr10, hr15⟩ ⟨by omega, by omega⟩
        · rcases List.mem_cons.mp hc with rfl | hc
          · exact hmem _ _ ⟨hr20, hr25⟩ ⟨by omega, by omega⟩
          · cases hc
      · rw [if_neg hrow] at h
        by_cases hcol : c1 = c2
        · rw [if_pos hcol, hjr, hjs] at h
          cases h
          intro c hc
          rcases List.mem_cons.mp hc with rfl | hc
          · exact hmem _ _ ⟨by omega, by omega⟩ ⟨hc10, hc15⟩
          · rcases List.mem_cons.mp hc with rfl | hc
            · exact hmem _ _ ⟨by omega, by omega⟩ ⟨hc20, hc25⟩
            · cases hc
        · rw [if_neg hcol] at h
          cases h
          intro c hc
          rcases List.mem_cons.mp hc with rfl | hc
          · exact hmem _ _ ⟨hr10, hr15⟩ ⟨hc20, hc25⟩
          · rcases List.mem_cons.mp hc with rfl | hc
            · exact hmem _ _ ⟨hr20, hr25⟩ ⟨hc10, hc15⟩
            · cases hc

theorem decryptPair_upper (L : Text) (hlen : L.length = 25)
    (hup : ∀ c ∈ L, 65 ≤ c ∧ c ≤ 90) (a b : ℕ) (out : Text)
    (h : decryptPair L a b = some out) :
    ∀ c ∈ out, 65 ≤ c ∧ c ≤ 90 := by
  have hmem : ∀ r c : ℤ, 0 ≤ r ∧ r < 5 → 0 ≤ c ∧ c < 5 →
      65 ≤ gridGet L r c ∧ gridGet L r c ≤ 90 := fun r c hr hc =>
    hup _ (gridGet_mem L hlen r c hr hc)
  cases hfa : findPosition L a with
  | none =>
    simp only [decryptPair, hfa] at h
    cases h
  | some p =>
    obtain ⟨r1, c1⟩ := p
    cases hfb : findPosition L b with
    | none =>
      simp only [decryptPair, hfa, hfb] at h
      cases h
    | some q =>
      obtain ⟨r2, c2⟩ := q
      obtain ⟨hr10, hr15, hc10, hc15⟩ := findPosition_bounds _ _ _ _ hfa
      obtain ⟨hr20, hr25, hc20, hc25⟩ := findPosition_bounds _ _ _ _ hfb
      rw [decryptPair_eq _ a b r1 c1 r2 c2 hfa hfb] at h
      have hm1 := mod_nonneg_lt (c1 - 1) 5 (by norm_num)
      have hm2 := mod_nonneg_lt (c2 - 1) 5 (by norm_num)
      have hm3 := mod_nonneg_lt (r1 - 1) 5 (by norm_num)
      have hm4 := mod_nonneg_lt (r2 - 1) 5 (by norm_num)
      by_cases hrow : r1 = r2
      · rw [if_pos hrow] at h
        cases h
        intro c hc
        rcases List.mem_cons.mp hc with rfl | hc
        · exact hmem _ _ ⟨hr10, hr15⟩ ⟨hm1.1, hm1.2⟩
        · rcases List.mem_cons.mp hc with rfl | hc
          · exact hmem _ _ ⟨hr20, hr25⟩ ⟨hm2.1, hm2.2⟩
          · cases hc
      · rw [if_neg hrow] at h
        by_cases hcol : c1 = c2
        · rw [if_pos hcol] at h
          cases h
          intro c hc
          rcases List.mem_cons.mp hc with rfl | hc
          · exact hmem _ _ ⟨hm3.1, hm3.2⟩ ⟨hc10, hc15⟩
          · rcases List.mem_cons.mp hc with rfl | hc
            · exact hmem _ _ ⟨hm4.1, hm4.2⟩ ⟨hc20, hc25⟩
            · cases hc
        · rw [if_neg hcol] at h
          cases h
          intro c hc
          rcases List.mem_cons.mp hc with rfl | hc
          · exact hmem _ _ ⟨hr10, hr15⟩ ⟨hc20, hc25⟩
          · rcases List.mem_cons.mp hc with rfl | hc
            · exact hmem _ _ ⟨hr20, hr25⟩ ⟨hc10, hc15⟩
            · cases hc

theorem encryptDigrams_upper (L : Text) (hlen : L.length = 25)
    (hup : ∀ c ∈ L, 65 ≤ c ∧ c ≤ 90) : ∀ (ds : List (ℕ × ℕ)) (out : Text),
    encryptDigrams L ds = some out → ∀ c ∈ out, 65 ≤ c ∧ c ≤ 90
  | [], out, h => by
    cases h
    intro c hc
    cases hc
  | (x, y) :: ds, out, h => by
    revert h
    show (match encryptDigram L (x, y), encryptDigrams L ds with
      | some pair, some r => some (pair ++ r)
      | _, _ => none) = some out → _
    cases hp : encryptDigram L (x, y) with
    | none => intro h; cases h
    | some pair =>
      cases hr : encryptDigrams L ds with
      | none => intro h; cases h
      | some r =>
        intro h
        cases h
        intro c hc
        rcases List.mem_append.mp hc with hc | hc
        · exact encryptDigram_upper L hlen hup x y pair hp c hc
        · exact encryptDigrams_upper L hlen hup ds r hr c hc

theorem decryptPairs_upper (L : Text) (hlen : L.length = 25)
    (hup : ∀ c ∈ L, 65 ≤ c ∧ c ≤ 90) : ∀ (t : Text) (out : Text),
    decryptPairs L t = some out → ∀ c ∈ out, 65 ≤ c ∧ c ≤ 90
  | [], out, h => by
    cases h
    intro c hc
    cases hc
  | [a], out, h => by cases h
  | a :: b :: rest, out, h => by
    revert h
    show (match decryptPair L a b, decryptPairs L rest with
      | some pair, some r => some (pair ++ r)
      | _, _ => none) = some out → _
    cases hp : decryptPair L a b with
    | none => intro h; cases h
    | some pair =>
      cases hr : decryptPairs L rest with
      | none => intro h; cases h
      | some r =>
        intro h
        cases h
        intro c hc
        rcases List.mem_append.mp hc with hc | hc
        · exact decryptPair_upper L hlen hup a b pair hp c hc
        · exact decryptPairs_upper L hlen hup rest r hr c hc

theorem forall2_map_self (R : ℕ → ℕ → Prop) (f : ℕ → ℕ) (T : Text)
    (h : ∀ x, R x (f x)) : List.Forall₂ R T (T.map f) := by
  induction T with
  | nil => exact List.Forall₂.nil
  | cons a t ih => exact List.Forall₂.cons (h a) ih

theorem affineEncChar_nonalpha (a b : ℤ) (c : ℕ) (h : ¬ isAlphaCode c) :
    affineEncChar a b c = c := by
  unfold isAlphaCode at h
  rw [affineEncChar, if_neg (fun h1 => h (Or.inl h1)),
    if_neg (fun h2 => h (Or.inr h2))]

theorem affineDecChar_nonalpha (aI b : ℤ) (c : ℕ) (h : ¬ isAlphaCode c) :
    affineDecChar aI b c = c := by
  unfold isAlphaCode at h
  rw [affineDecChar, if_neg (fun h1 => h (Or.inl h1)),
    if_neg (fun h2 => h (Or.inr h2))]

/-- C1 is false as stated: the shift and affine transforms do copy
non-alphabetic symbols through, but the Hill (and Playfair) text
preparation strips them.  `'!'` (code 33) occurs in the input `"a!"` and
is absent from the Hill encryption under the identity key. -/
theorem C1_counterexample :
    33 ∈ str "a!" ∧ ¬ isAlphaCode 33 ∧
    33 ∉ hillEncrypt (str "a!") ⟨1, 0, 0, 0, 1, 0, 0, 0, 1⟩ := by
  refine ⟨by decide, by decide, by decide⟩

/-- C1 amended: the shift and affine transforms (encode and decode) pass
every non-alphabetic symbol through unchanged, in place; the digraph and
linear-block transforms instead strip them during text preparation, so no
non-alphabetic input symbol ever reaches their output.  Hill encryption
(which pads to a multiple of 3) and both Playfair directions emit
alphabetic symbols only; Hill decryption emits alphabetic symbols plus,
when the filtered text's length is not a multiple of 3, NUL characters
(code 0) produced by the trailing partial block — never the original
non-alphabetic symbols.  When the filtered length is a multiple of 3 the
Hill decryption output is alphabetic only. -/
theorem C1_amended_nonalpha_passthrough (T : Text) (s a b : ℤ) (K : Text)
    (M : Mat3) :
    List.Forall₂ (fun x y => ¬ isAlphaCode x → y = x) T (caesarEncrypt T s) ∧
    List.Forall₂ (fun x y => ¬ isAlphaCode x → y = x) T (caesarDecrypt T s) ∧
    (∀ out, affineEncrypt T a b = .ok out →
      List.Forall₂ (fun x y => ¬ isAlphaCode x → y = x) T out) ∧
    (∀ out, affineDecrypt T a b = .ok out →
      List.Forall₂ (fun x y => ¬ isAlphaCode x → y = x) T out) ∧
    (∀ c ∈ hillEncrypt T M, isAlphaCode c) ∧
    (∀ out, hillDecrypt T M = .ok out → ∀ c ∈ out, isAlphaCode c ∨ c = 0) ∧
    (∀ out, (upperFilter T).length % 3 = 0 → hillDecrypt T M = .ok out →
      ∀ c ∈ out, isAlphaCode c) ∧
    (∀ out, playfairEncrypt T K = some out → ∀ c ∈ out, isAlphaCode c) ∧
    (∀ out, playfairDecrypt T K = some out → ∀ c ∈ out, isAlphaCode c) := by
  refine ⟨?_, ?_, ?_, ?_, ?_, ?_, ?_, ?_, ?_⟩
  · exact forall2_map_self _ _ T (fun x hx => caesarChar_nonalpha s x hx)
  · exact forall2_map_self _ _ T (fun x hx => caesarChar_nonalpha (-s) x hx)
  · intro out hok
    by_cases hg : gcd a 26 ≠ 1
    · rw [affineEncrypt, if_pos hg] at hok
      cases hok
    · rw [affineEncrypt, if_neg hg] at hok
      cases hok
      exact forall2_map_self _ _ T (fun x hx => affineEncChar_nonalpha a b x hx)
  · intro out hok
    cases hmi : modInverse a 26 with
    | none => rw [affineDecrypt, hmi] at hok; cases hok
    | some v =>
      rw [affineDecrypt, hmi] at hok
      cases hok
      exact forall2_map_self _ _ T (fun x hx => affineDecChar_nonalpha v b x hx)
  · intro c hc
    have := hillBlocks_upper M (hillPad (upperFilter T))
      (hillPad_length (upperFilter T)) c hc
    exact Or.inr ⟨this.1, this.2⟩
  · intro out hok
    cases hinv : inverseMatrix3x3Mod26 M with
    | error e => rw [hillDecrypt, hinv] at hok; cases hok
    | ok inv =>
      rw [hillDecrypt, hinv] at hok
      cases hok
      intro c hc
      rcases hillBlocks_upper_or_nul inv (upperFilter T) c hc with h | h
      · exact Or.inl (Or.inr ⟨h.1, h.2⟩)
      · exact Or.inr h
  · intro out hlen hok
    cases hinv : inverseMatrix3x3Mod26 M with
    | error e => rw [hillDecrypt, hinv] at hok; cases hok
    | ok inv =>
      rw [hillDecrypt, hinv] at hok
      cases hok
      intro c hc
      have := hillBlocks_upper inv (upperFilter T) hlen c hc
      exact Or.inr ⟨this.1, this.2⟩
  · intro out hok
    intro c hc
    have := encryptDigrams_upper (buildPlayfairMatrix K)
      (buildPlayfairMatrix_length K)
      (fun x hx => by
        have := (mem_matrix_iff K x).mp hx
        exact ⟨this.1, this.2.1⟩)
      (preparePlayfairText T) out hok c hc
    exact Or.inr ⟨this.1, this.2⟩
  · intro out hok
    intro c hc
    have := decryptPairs_upper (buildPlayfairMatrix K)
      (buildPlayfairMatrix_length K)
      (fun x hx => by
        have := (mem_matrix_iff K x).mp hx
        exact ⟨this.1, this.2.1⟩)
      _ out hok c hc
    exact Or.inr ⟨this.1, this.2⟩

/-- Witness for the amended C1 on a text with punctuation and spaces,
including the Hill decryption of a one-letter text under the identity key,
whose trailing partial block yields exactly three NUL characters. -/
theorem C1_amended_witness :
    List.Forall₂ (fun x y => ¬ isAlphaCode x → y = x) (str "a! b?")
      (caesarEncrypt (str "a! b?") 3) ∧
    List.Forall₂ (fun x y => ¬ isAlphaCode x → y = x) (str "a!")
      (str "i!") ∧
    (∀ c ∈ hillEncrypt (str "a! b?") defaultHillKey, isAlphaCode c) ∧
    (hillDecrypt (str "A") ⟨1, 0, 0, 0, 1, 0, 0, 0, 1⟩ = .ok [0, 0, 0] ∧
      ∀ c ∈ [0, 0, 0], isAlphaCode c ∨ c = 0) ∧
    ((upperFilter (str "abc")).length % 3 = 0 ∧
      ∀ c ∈ str "ABC", isAlphaCode c) :=
  ⟨(C1_amended_nonalpha_passthrough (str "a! b?") 3 5 8 (str "key")
      defaultHillKey).1,
   (C1_amended_nonalpha_passthrough (str "a!") 3 5 8 (str "key")
      defaultHillKey).2.2.1 (str "i!") (by rfl),
   (C1_amended_nonalpha_passthrough (str "a! b?") 3 5 8 (str "key")
      defaultHillKey).2.2.2.2.1,
   ⟨by rfl,
    (C1_amended_nonalpha_passthrough (str "A") 3 5 8 (str "key")
      ⟨1, 0, 0, 0, 1, 0, 0, 0, 1⟩).2.2.2.2.2.1 [0, 0, 0] (by rfl)⟩,
   ⟨by rfl,
    (C1_amended_nonalpha_passthrough (str "abc") 3 5 8 (str "key")
      ⟨1, 0, 0, 0, 1, 0, 0, 0, 1⟩).2.2.2.2.2.2.1 (str "ABC")
      (by rfl) (by rfl)⟩⟩

/-! ### Exhaustive key search (claim C7) -/

theorem flatMap_singleton_map {α β : Type} : ∀ (l : List α) (f : α → β),
    (l.flatMap fun x => [f x]) = l.map f
  | [], _ => rfl
  | a :: l, f => by
    rw [List.flatMap_cons, flatMap_singleton_map l f]
    rfl

theorem affineInner_eq (ct : Text) (a : ℤ) (v : ℤ)
    (hv : modInverse a 26 = some v) :
    ((List.range 26).flatMap fun (b : ℕ) =>
      match affineDecrypt ct a (b : ℤ) with
      | .ok t => ([(a, b, t)] : List (ℤ × ℕ × Text))
      | .error _ => []) =
    (List.range 26).map fun (b : ℕ) =>
      ((a, b, ct.map (affineDecChar ((modInverse a 26).getD 0) (b : ℤ))) :
        ℤ × ℕ × Text) := by
  have hg : (modInverse a 26).getD 0 = v := by rw [hv]; rfl
  have hd : ∀ b : ℕ,
      affineDecrypt ct a (b : ℤ) = .ok (ct.map (affineDecChar v (b : ℤ))) := by
    intro b
    rw [affineDecrypt, hv]
  rw [hg]
  rw [List.flatMap_congr (fun b _ => by rw [hd b])]
  exact flatMap_singleton_map _ _

theorem bruteForceAffine_eq (ct : Text) :
    bruteForceAffine ct = validAList.flatMap fun a =>
      (List.range 26).map fun (b : ℕ) =>
        ((a, b, ct.map (affineDecChar ((modInverse a 26).getD 0) (b : ℤ))) :
          ℤ × ℕ × Text) := by
  rw [bruteForceAffine]
  apply List.flatMap_congr
  intro a ha
  have hs : (modInverse a 26).isSome = true := by
    fin_cases ha <;> decide
  obtain ⟨v, hv⟩ := Option.isSome_iff_exists.mp hs
  exact affineInner_eq ct a v hv

theorem pairwise_flatMap_lex : ∀ (l : List ℤ), List.Pairwise (· < ·) l →
    List.Pairwise (fun p q : ℤ × ℕ => p.1 < q.1 ∨ (p.1 = q.1 ∧ p.2 < q.2))
      (l.flatMap fun a => (List.range 26).map fun b => (a, b))
  | [], _ => List.Pairwise.nil
  | a :: l, hl => by
    rw [List.flatMap_cons]
    apply List.pairwise_append.mpr
    obtain ⟨hhead, htail⟩ := List.pairwise_cons.mp hl
    refine ⟨?_, pairwise_flatMap_lex l htail, ?_⟩
    · apply List.pairwise_map.mpr
      exact (List.pairwise_lt_range 26).imp fun h => Or.inr ⟨rfl, h⟩
    · intro x hx y hy
      obtain ⟨b, _, rfl⟩ := List.mem_map.mp hx
      obtain ⟨c, hc, hy2⟩ := List.mem_flatMap.mp hy
      obtain ⟨b2, _, rfl⟩ := List.mem_map.mp hy2
      exact Or.inl (hhead c hc)

set_option maxRecDepth 4000 in
/-- C7: `bruteForceCaesar` returns exactly 26 entries, keyed by the shifts
`0..25` in ascending order, with the known-plaintext instance
`(3, "HELLO")` for `"KHOOR"`; `bruteForceAffine` returns exactly 312
entries, keyed by the 12 valid multipliers times the 26 offsets in
ascending lexicographic order, with `(5, 8, "HELLO")` for `"RCLLA"`. -/
theorem C7_brute_force_enumeration :
    (∀ ct, (bruteForceCaesar ct).length = 26) ∧
    (∀ ct, (bruteForceCaesar ct).map Prod.fst = List.range 26) ∧
    (∀ ct, List.Pairwise (fun p q => p.1 < q.1) (bruteForceCaesar ct)) ∧
    (3, str "HELLO") ∈ bruteForceCaesar (str "KHOOR") ∧
    (∀ ct, (bruteForceAffine ct).length = 312) ∧
    (∀ ct, (bruteForceAffine ct).map (fun e => (e.1, e.2.1)) = affineKeyPairs) ∧
    (∀ ct, List.Pairwise
      (fun p q => p.1 < q.1 ∨ (p.1 = q.1 ∧ p.2.1 < q.2.1)) (bruteForceAffine ct)) ∧
    (5, 8, str "HELLO") ∈ bruteForceAffine (str "RCLLA") := by
  have hkeys : ∀ ct, (bruteForceAffine ct).map (fun e => (e.1, e.2.1)) =
      affineKeyPairs := by
    intro ct
    rw [bruteForceAffine_eq, affineKeyPairs, List.map_flatMap]
    apply List.flatMap_congr
    intro a _
    rw [List.map_map]
    rfl
  refine ⟨?_, ?_, ?_, by decide, ?_, hkeys, ?_, by decide⟩
  · intro ct
    rw [bruteForceCaesar]
    simp
  · intro ct
    rw [bruteForceCaesar, List.map_map]
    exact List.map_id _
  · intro ct
    rw [bruteForceCaesar]
    exact List.pairwise_map.mpr (by simpa using List.pairwise_lt_range 26)
  · intro ct
    have := congrArg List.length (hkeys ct)
    rw [List.length_map] at this
    rw [this]
    decide
  · intro ct
    have hpw : List.Pairwise
        (fun p q : ℤ × ℕ => p.1 < q.1 ∨ (p.1 = q.1 ∧ p.2 < q.2))
        affineKeyPairs := by
      rw [affineKeyPairs]
      exact pairwise_flatMap_lex validAList (by decide)
    have := List.pairwise_map.mp (by rw [hkeys ct]; exact hpw)
    exact this

/-! ### Dictionary attack (claim C9) -/

theorem dictionaryDirectAttack_filter (ct : Text) (words : List Text)
    (cipher : String) (params : AttackParams) :
    dictionaryDirectAttack ct words cipher params =
      words.filter (dictMatches ct cipher params) := by
  suffices h : ∀ (ws : List Text) (acc : List Text),
      ws.foldl (fun acc word =>
        match encodeWord cipher params word with
        | .ok enc =>
          if enc.map toLowerCode = ct.map toLowerCode then acc ++ [word] else acc
        | .error _ => acc) acc = acc ++ ws.filter (dictMatches ct cipher params) by
    rw [dictionaryDirectAttack, h words []]
    rfl
  intro ws
  induction ws with
  | nil => intro acc; simp
  | cons w ws ih =>
    intro acc
    rw [List.foldl_cons, ih, List.filter_cons]
    show (match encodeWord cipher params w with
      | .ok enc =>
        if enc.map toLowerCode = ct.map toLowerCode then acc ++ [w] else acc
      | .error _ => acc) ++ ws.filter (dictMatches ct cipher params) = _
    cases he : encodeWord cipher params w with
    | ok enc =>
      have hm : dictMatches ct cipher params w =
          decide (enc.map toLowerCode = ct.map toLowerCode) := by
        rw [dictMatches, he]
      rw [hm]
      show (if enc.map toLowerCode = ct.map toLowerCode then acc ++ [w] else acc) ++
        ws.filter (dictMatches ct cipher params) = _
      by_cases hcond : enc.map toLowerCode = ct.map toLowerCode
      · rw [if_pos hcond, if_pos (by simp [hcond])]
        simp
      · rw [if_neg hcond, if_neg (by simp [hcond])]
    | error e =>
      have hm : dictMatches ct cipher params w = false := by
        rw [dictMatches, he]
      rw [hm]
      show acc ++ ws.filter (dictMatches ct cipher params) = _
      simp

/-- C9: on the wordlist `["hello", "world"]` with the shift cipher at key 3
and ciphertext `"khoor"`, the direct dictionary attack returns exactly
`["hello"]`; and in general the attack equals a filter of the wordlist by
the per-word test, so entries whose encoding throws are skipped while every
remaining entry is still scanned. -/
theorem C9_dictionary_direct_attack :
    dictionaryDirectAttack (str "khoor") [str "hello", str "world"] "caesar"
      ⟨some 3, none, none, none, none⟩ = [str "hello"] ∧
    (∀ (ct : Text) (words : List Text) (cipher : String) (params : AttackParams),
      dictionaryDirectAttack ct words cipher params =
        words.filter (dictMatches ct cipher params)) :=
  ⟨by decide, dictionaryDirectAttack_filter⟩

end DeathSsad
